import Mathlib

/-
Verification of the dino-bot spatial reasoning core against its design
specification.  The Python sources are shallowly embedded: `Coords` is a pair
of integers, Python sets of coordinates become `Finset Coords`, dicts keyed by
coordinates become association lists in insertion order, and the BFS work-list
loop is run on an explicitly supplied step budget that is provably large
enough for the loop to reach its natural exit (queue empty or goal found), so
the embedded function agrees with the unbounded source loop.
-/

set_option maxHeartbeats 1600000

/-- Integer grid coordinate, embedding `src/schemas.py` `Coords` (a frozen
dataclass of two Python ints compared by value). -/
structure Coords where
  x : Int
  y : Int
deriving DecidableEq, Repr

/-- The movement directions of `src/schemas.py` `Direction`. -/
inductive Direction where
  | LEFT
  | RIGHT
  | UP
  | DOWN
  | WAIT
deriving DecidableEq, Repr

/-- The `value` of each `Direction` member. -/
def Direction.value : Direction → Coords
  | .LEFT => ⟨-1, 0⟩
  | .RIGHT => ⟨1, 0⟩
  | .UP => ⟨0, -1⟩
  | .DOWN => ⟨0, 1⟩
  | .WAIT => ⟨0, 0⟩

/-- The default direction list of `bfs`: every `Direction` except `WAIT`,
in enum declaration order. -/
def directionsDefault : List Direction := [.LEFT, .RIGHT, .UP, .DOWN]

/-- The cell reached from `c` by stepping in direction `d`
(`Coords(current_pos.x + ddx, current_pos.y + ddy)`). -/
def stepCell (c : Coords) (d : Direction) : Coords :=
  ⟨c.x + d.value.x, c.y + d.value.y⟩

/-- The neighbour admission test of `bfs`: inside the `width × height` grid
and not forbidden. -/
def freeCell (forbidden : Finset Coords) (width height : Int) (c : Coords) : Prop :=
  (0 ≤ c.x ∧ c.x < width ∧ 0 ≤ c.y ∧ c.y < height) ∧ c ∉ forbidden

instance (forbidden : Finset Coords) (width height : Int) (c : Coords) :
    Decidable (freeCell forbidden width height c) := by
  unfold freeCell; infer_instance

/-- Direction prioritisation of `bfs`: when a goal hint is present, try the
axis with the larger remaining absolute distance first. -/
def prioritizedDirs (goal : Option Coords) (cur : Coords) (dirs : List Direction) :
    List Direction :=
  match goal with
  | none => dirs
  | some g =>
    let dx := (g.x - cur.x).natAbs
    let dy := (g.y - cur.y).natAbs
    if dy < dx then
      dirs.filter (fun d => d.value.x ≠ 0) ++ dirs.filter (fun d => d.value.y ≠ 0)
    else if dx < dy then
      dirs.filter (fun d => d.value.y ≠ 0) ++ dirs.filter (fun d => d.value.x ≠ 0)
    else dirs

/-- The inner `for direction in prioritized` loop of `bfs`: visit each
candidate neighbour in order, marking admissible unvisited ones visited and
collecting them (in order) for the queue. Returns the grown visited set and
the list of newly enqueued cells. -/
def stepNeighbors (forbidden : Finset Coords) (width height : Int) (cur : Coords) :
    List Direction → Finset Coords → Finset Coords × List Coords
  | [], visited => (visited, [])
  | d :: ds, visited =>
    let n := stepCell cur d
    if freeCell forbidden width height n ∧ n ∉ visited then
      let r := stepNeighbors forbidden width height cur ds (insert n visited)
      (r.1, n :: r.2)
    else
      stepNeighbors forbidden width height cur ds visited

/-- The `while queue` loop of `bfs`, with an explicit step budget `fuel`.
`bfs` below supplies a budget provably larger than the loop can run
(each iteration either terminates or removes one queue entry while new
entries are matched by newly visited in-bounds cells), so the embedding
agrees with the unbounded Python loop. -/
def bfsLoop (isGoal : Coords → List Coords → Bool) (forbidden : Finset Coords)
    (width height : Int) (dirs : List Direction) (goal : Option Coords) :
    Nat → List (Coords × List Coords) → Finset Coords → List Coords
  | _, [], _ => []
  | 0, _ :: _, _ => []
  | fuel + 1, (cur, path) :: rest, visited =>
    if isGoal cur path then path
    else
      let r := stepNeighbors forbidden width height cur
        (prioritizedDirs goal cur dirs) visited
      bfsLoop isGoal forbidden width height dirs goal fuel
        (rest ++ r.2.map (fun n => (n, path ++ [n]))) r.1

/-- Generic grid BFS, embedding `bfs` of `src/pathfinding.py`: start from
`(start, [start])` with `start` visited; `directions = None` selects the
non-`WAIT` directions. The step budget `2·width·height + 1` dominates the
loop measure `2·|grid \ visited| + |queue|`. -/
def bfs (start : Coords) (isGoal : Coords → List Coords → Bool)
    (forbidden : Finset Coords) (width height : Int)
    (directions : Option (List Direction)) (goal : Option Coords) : List Coords :=
  bfsLoop isGoal forbidden width height (directions.getD directionsDefault) goal
    (2 * (width.toNat * height.toNat) + 1) [(start, [start])] {start}

/-- Embedding of `find_path` of `src/pathfinding.py`: forward BFS from
`start` to `goal`; on an empty result, retry from `goal` back to `start` and
reverse. -/
def findPath (start goal : Coords) (forbidden : Finset Coords)
    (width height : Int) : List Coords :=
  let pathTuples := bfs start (fun pos _ => pos = goal) forbidden width height
    none (some goal)
  if pathTuples = [] then
    (bfs goal (fun pos _ => pos = start) forbidden width height none (some start)).reverse
  else
    pathTuples

/-- The in-bounds cells of the grid, as a finset. -/
def gridFinset (width height : Int) : Finset Coords :=
  (Finset.Ico 0 width ×ˢ Finset.Ico 0 height).image (fun p => ⟨p.1, p.2⟩)

/-- Embedding of `manhattan` of `src/pathfinding.py`. -/
def manhattan (a b : Coords) : Int :=
  |a.x - b.x| + |a.y - b.y|

/-- Embedding of `src/schemas.py` `Gem`. -/
structure Gem where
  position : Coords
  ttl : Int
  distance2bot : Option Int
  distance2enemies : List Int
  reachable : Bool
deriving DecidableEq, Repr

/-- Embedding of `src/schemas.py` `EnemyBot`. -/
structure EnemyBot where
  position : Coords
deriving DecidableEq, Repr

/-- Embedding of `src/schemas.py` `BehaviourState`. -/
inductive BehaviourState where
  | IDLE
  | EXPLORING
  | PATROLLING
  | COLLECTING_GEM
  | UNSTUCKING
deriving DecidableEq, Repr

/-- Embedding of `check_reachable_gem` of `src/bot_logic.py`. The source
calls `cached_find_path`; the cache theorems below show a cached result
always has the length of the uncached `find_path` result, and only the
length is inspected here, so the uncached function is substituted. -/
def checkReachableGem (botPos : Coords) (gem : Gem) (walls : Finset Coords)
    (width height : Int) : Bool :=
  let gemPath := findPath botPos gem.position walls width height
  decide (0 < gemPath.length) && decide ((gemPath.length : Int) - 1 ≤ gem.ttl)

/-- The slice of `GameState` (`src/gamestate.py`) that the verified
operations read and write. Wall and floor dictionaries are modelled by
their key sets (the metadata values are never consulted by these
operations), and `config` is modelled as always present via the
`width`/`height` fields. -/
structure GameStateM where
  bot : Coords
  knownGems : List Gem
  visibleGems : List Gem
  visibleBots : List EnemyBot
  knownWalls : Finset Coords
  knownFloors : Finset Coords
  hiddenPositions : Finset Coords
  caveRevealed : Bool
  behaviourState : BehaviourState
  width : Int
  height : Int
deriving DecidableEq

/-- Python `known_gems.update({gem.position: gem for gem in visible_gems})`:
fold the visible gems into the association list in order; an existing
position is overwritten in place, a new position is appended. Building the
comprehension dict first and then merging it yields exactly this fold. -/
def updateGemsDict (known : List Gem) (vis : List Gem) : List Gem :=
  vis.foldl
    (fun acc g =>
      if acc.any (fun o => o.position = g.position) then
        acc.map (fun o => if o.position = g.position then g else o)
      else acc ++ [g])
    known

/-- Embedding of `GameState.update_known_gems`: decrement every known gem's
ttl and drop those at `ttl ≤ 0`; merge the visible gems; recompute
`reachable`; finally `pop` the gem at the bot's own cell. -/
def updateKnownGems (st : GameStateM) : List Gem :=
  let decayed := (st.knownGems.map (fun g => { g with ttl := g.ttl - 1 })).filter
    (fun g => !decide (g.ttl ≤ 0))
  let merged := updateGemsDict decayed st.visibleGems
  let withReach := merged.map
    (fun g => { g with reachable :=
      checkReachableGem st.bot g st.knownWalls st.width st.height })
  withReach.filter (fun g => !decide (g.position = st.bot))

/-- Embedding of `get_bot_enemy_2_gem_distances` of `src/bot_logic.py`:
set the bot distance and append one distance per visible enemy. -/
def getBotEnemy2GemDistances (botPos : Coords) (enemies : List EnemyBot)
    (gem : Gem) : Gem :=
  { gem with
    distance2bot := some (manhattan botPos gem.position)
    distance2enemies :=
      gem.distance2enemies ++ enemies.map (fun e => manhattan e.position gem.position) }

/-- Embedding of `GameState.recalculate_gem_distances`. -/
def recalculateGemDistances (st : GameStateM) : List Gem :=
  st.knownGems.map (getBotEnemy2GemDistances st.bot st.visibleBots)

/-- The effect of one `GameState.refresh` call on `known_gems`: of all the
steps `refresh` runs, only `update_known_gems` followed by
`recalculate_gem_distances` touch `known_gems`, and neither reads any field
the other steps write. -/
def gemRefresh (st : GameStateM) : GameStateM :=
  let st1 := { st with knownGems := updateKnownGems st }
  { st1 with knownGems := recalculateGemDistances st1 }

/-- Embedding of `GameState.update_known_walls` (merge the tick's observed
wall positions). -/
def updateKnownWalls (st : GameStateM) (wallObs : Finset Coords) : GameStateM :=
  { st with knownWalls := st.knownWalls ∪ wallObs }

/-- Embedding of `GameState.update_known_floors` (merge the tick's observed
floor positions). -/
def updateKnownFloors (st : GameStateM) (floorObs : Finset Coords) : GameStateM :=
  { st with knownFloors := st.knownFloors ∪ floorObs }

/-- Embedding of `GameState.update_hidden_positions`:
`hidden -= known_floors | known_walls`. -/
def updateHiddenPositions (st : GameStateM) : GameStateM :=
  { st with hiddenPositions := st.hiddenPositions \ (st.knownFloors ∪ st.knownWalls) }

/-- The `_adjacent` helper of `GameState.update_hidden_floors`: in-bounds
4-neighbours of a cell. -/
def adjacentInBounds (pos : Coords) (width height : Int) : List Coords :=
  ([((-1 : Int), (0 : Int)), (1, 0), (0, -1), (0, 1)].filter
    (fun d => decide (0 ≤ pos.x + d.1 ∧ pos.x + d.1 < width ∧
      0 ≤ pos.y + d.2 ∧ pos.y + d.2 < height))).map
    (fun d => ⟨pos.x + d.1, pos.y + d.2⟩)

/-- The frontier computed by `GameState.update_hidden_floors`: hidden cells
with a known-floor neighbour. The source materialises a Python list from a
set; only membership and emptiness are used, so a finset is faithful. -/
def hiddenFloorsFrontier (st : GameStateM) : Finset Coords :=
  st.hiddenPositions.filter
    (fun pos => ∃ adj ∈ adjacentInBounds pos st.width st.height, adj ∈ st.knownFloors)

/-- Embedding of the state effect of `GameState.update_hidden_floors`: when
the frontier list is empty, `cave_revealed` is set; it is never cleared. -/
def updateHiddenFloors (st : GameStateM) : GameStateM :=
  if hiddenFloorsFrontier st = ∅ then { st with caveRevealed := true } else st

/-- One per-tick hidden/cave update as exercised by the run loop: merge the
tick's observed walls and floors, shrink `hidden`, then run the frontier
check of `update_hidden_floors`. -/
def hiddenTick (st : GameStateM) (obs : Finset Coords × Finset Coords) : GameStateM :=
  updateHiddenFloors
    (updateHiddenPositions (updateKnownFloors (updateKnownWalls st obs.1) obs.2))

/-- A run of per-tick hidden/cave updates. -/
def hiddenRun (st : GameStateM) (obss : List (Finset Coords × Finset Coords)) :
    GameStateM :=
  obss.foldl hiddenTick st

/-- Which of the three sub-strategies `GlobalCombinedStrategy` delegates to. -/
inductive StrategyChoice where
  | exploration
  | patrol
  | gemCollection
deriving DecidableEq, Repr

/-- Embedding of `GlobalCombinedStrategy.decide_strategy`
(`src/strategies/combined.py`): the returned pair is the chosen strategy and
the value of `game_state.behaviour_state` after the call. -/
def decideStrategy (st : GameStateM) : StrategyChoice × BehaviourState :=
  if st.knownGems.any (fun g => g.reachable) then
    (.gemCollection, .COLLECTING_GEM)
  else if !st.caveRevealed then
    (.exploration, .EXPLORING)
  else if st.behaviourState = .PATROLLING then
    (.patrol, st.behaviourState)
  else
    (.patrol, .PATROLLING)

/-- Scores handled by the strategy evaluators: path lengths (integers) or
Python `float("inf")`, modelled as the top element. -/
abbrev Score := WithTop Int

/-- Embedding of `simple_tie_breaker` of `src/strategies/schemas.py`:
`min(scored_candidates.items(), key=...)` keeps the first item of minimal
score; on an empty dict Python `min` raises `ValueError`, modelled as
`none`. -/
def simpleTieBreaker (scored : List (Coords × List Coords × Score)) :
    Option (Coords × List Coords) :=
  match scored with
  | [] => none
  | e :: es =>
    let best := es.foldl (fun b c => if c.2.2 < b.2.2 then c else b) e
    some (best.1, best.2.1)

/-- Embedding of `LocalStrategy.decide` of `src/strategies/schemas.py`,
parametric in the planner and evaluator callables. The scored-candidate
dict keeps one slot per distinct target (first occurrence; re-evaluation of
a duplicate target yields the same value). `best_candidate` is a dataclass
instance and hence always truthy. A `none` result models the uncaught
`ValueError` that `simple_tie_breaker` raises on an empty candidate dict;
the model state always carries a config, so the `config is None` guard of
the source never fires here. -/
def localStrategyDecide (planner : GameStateM → List Coords)
    (evaluator : GameStateM → Coords → List Coords × Score)
    (st : GameStateM) : Option Coords :=
  let candidates := planner st
  let keys := candidates.foldl
    (fun acc t => if acc.any (fun u => u = t) then acc else acc ++ [t]) []
  let scored := keys.map (fun t => (t, evaluator st t))
  match simpleTieBreaker scored with
  | none => none
  | some (bestCandidate, bestPath) =>
    if bestCandidate ≠ st.bot ∧ bestPath ≠ [] ∧ 1 < bestPath.length then
      some (bestPath.getD 1 st.bot)
    else
      some st.bot

/-- One pass of the `for s, elements in covery_sets.items()` scan inside
`solve_set_cover`: the first entry with strictly maximal fresh coverage,
provided some entry covers at least one new element. -/
def bestSetChoice (sets : List (Coords × Finset Coords)) (covered : Finset Coords) :
    Option (Coords × Finset Coords) × Nat :=
  sets.foldl
    (fun acc e =>
      let coverage := (e.2 \ covered).card
      if acc.2 < coverage then (some e, coverage) else acc)
    (none, 0)

/-- The greedy covering loop of `solve_set_cover` (`uni` is the universe
argument, which Lean reserves as a keyword). Each
iteration deletes the chosen entry, so `|view_points| + 1` steps of budget
are provably enough for the loop to reach its natural exit. -/
def greedyLoop (uni : Finset Coords) :
    Nat → List (Coords × Finset Coords) → Finset Coords → Finset Coords →
    Finset Coords × Finset Coords
  | 0, _, covered, selected => (covered, selected)
  | fuel + 1, sets, covered, selected =>
    if covered = uni then (covered, selected)
    else
      match (bestSetChoice sets covered).1 with
      | none => (covered, selected)
      | some e =>
        greedyLoop uni fuel (sets.eraseP (fun p => decide (p.1 = e.1)))
          (covered ∪ e.2) (insert e.1 selected)

/-- Embedding of `solve_set_cover` of `src/strategies/set_cover.py`
(greedy variant). The `view_points` dict is an association list in
insertion order. -/
def solveSetCover (viewPoints : List (Coords × Finset Coords))
    (uni : Finset Coords) : Finset Coords :=
  let r := greedyLoop uni (viewPoints.length + 1) viewPoints ∅ ∅
  if r.1 = uni then r.2 else ∅

/-- The `dx > dy` branch of `bresenham_line`, iterated exactly `n = dx`
times (the loop variable `x` moves one step towards `end.x` per iteration).
The float accumulator `err` only ever holds integer multiples of one half
and its arithmetic is exact, so it is tracked as the integer `2·err`. -/
def bresenhamStepsX : Nat → Int → Int → Int → Int → Int → Int → Int → List Coords
  | 0, _, x, y, _, _, _, _ => [⟨x, y⟩]
  | n + 1, err2, x, y, sx, sy, dx, dy =>
    ⟨x, y⟩ ::
      (let err2a := err2 - 2 * dy
       if err2a < 0 then bresenhamStepsX n (err2a + 2 * dx) (x + sx) (y + sy) sx sy dx dy
       else bresenhamStepsX n err2a (x + sx) y sx sy dx dy)

/-- The `dx <= dy` branch of `bresenham_line`, iterated exactly `dy` times
(the loop variable `y` moves one step towards `end.y` per iteration, `x`
advances only when the accumulator drops below zero). -/
def bresenhamStepsY : Nat → Int → Int → Int → Int → Int → Int → Int → List Coords
  | 0, _, x, y, _, _, _, _ => [⟨x, y⟩]
  | n + 1, err2, x, y, sx, sy, dx, dy =>
    ⟨x, y⟩ ::
      (let err2a := err2 - 2 * dx
       if err2a < 0 then bresenhamStepsY n (err2a + 2 * dy) (x + sx) (y + sy) sx sy dx dy
       else bresenhamStepsY n err2a x (y + sy) sx sy dx dy)

/-- Embedding of `bresenham_line` of `src/visibility.py` (origin and end
cell included). -/
def bresenhamLine (start endp : Coords) : List Coords :=
  let dx := (endp.x - start.x).natAbs
  let dy := (endp.y - start.y).natAbs
  let sx : Int := if start.x < endp.x then 1 else -1
  let sy : Int := if start.y < endp.y then 1 else -1
  if dy < dx then
    bresenhamStepsX dx (dx : Int) start.x start.y sx sy (dx : Int) (dy : Int)
  else
    bresenhamStepsY dy (dy : Int) start.x start.y sx sy (dx : Int) (dy : Int)

/-- The `is_blocking` helper of `compute_fov`: out of bounds or a wall
(`grid[y][x]`, `True` = wall). -/
def isBlocking (grid : List (List Bool)) (width height : Int) (c : Coords) : Bool :=
  !decide (0 ≤ c.x ∧ c.x < width ∧ 0 ≤ c.y ∧ c.y < height) ||
    ((grid.getD c.y.toNat []).getD c.x.toNat false)

/-- Embedding of `compute_fov` of `src/visibility.py`. The double loop over
`dx, dy ∈ range(-radius, radius + 1)` adding targets to a set is the image
of the filtered offset square (the offset-to-target map is injective).
`len(grid[0])` raises on an empty grid in the source; there `height = 0`
rejects every target, so the embedded result is ∅ either way. -/
def computeFov (grid : List (List Bool)) (position : Coords) (radius : Int) :
    Finset Coords :=
  let height : Int := grid.length
  let width : Int := (grid.headD []).length
  ((Finset.Icc (-radius) radius ×ˢ Finset.Icc (-radius) radius).filter
    (fun d =>
      (0 ≤ position.x + d.1 ∧ position.x + d.1 < width ∧
        0 ≤ position.y + d.2 ∧ position.y + d.2 < height) ∧
      d.1 * d.1 + d.2 * d.2 ≤ radius * radius ∧
      (bresenhamLine position ⟨position.x + d.1, position.y + d.2⟩).any
        (fun s => isBlocking grid width height s) = false)).image
    (fun d => ⟨position.x + d.1, position.y + d.2⟩)

/-- A key of the `cached_path_decorator` cache:
`(start, goal, frozenset(forbidden), width, height)`. -/
structure PKey where
  s : Coords
  g : Coords
  forb : Finset Coords
  w : Int
  h : Int
deriving DecidableEq

/-- The decorator cache: a Python dict in insertion order. -/
abbrev PCache := List (PKey × List Coords)

/-- Dict lookup in the decorator cache. -/
def lookupC (cache : PCache) (k : PKey) : Option (List Coords) :=
  (cache.find? (fun e => decide (e.1 = k))).map (fun e => e.2)

/-- One call of the `wrapper` produced by `cached_path_decorator`
(`src/pathfinding.py`): on a miss, first try the inverse key (reversing its
path), then scan for a cached path to the same goal containing `start`
(taking its suffix from the first occurrence), and only then run the wrapped
`find_path`. Returns the result, the new cache, and whether the wrapped
function was invoked. -/
def cachedStep (k : PKey) (cache : PCache) : List Coords × PCache × Bool :=
  match lookupC cache k with
  | some p => (p, cache, false)
  | none =>
    match lookupC cache ⟨k.g, k.s, k.forb, k.w, k.h⟩ with
    | some p => (p.reverse, cache ++ [(k, p.reverse)], false)
    | none =>
      match cache.find? (fun e =>
          decide (e.1.g = k.g ∧ e.1.forb = k.forb ∧ e.1.w = k.w ∧ e.1.h = k.h ∧
            k.s ∈ e.2)) with
      | some e =>
        let p := e.2.drop (e.2.indexOf k.s)
        (p, cache ++ [(k, p)], false)
      | none =>
        let p := findPath k.s k.g k.forb k.w k.h
        (p, cache ++ [(k, p)], true)

/-- A sequence of `cached_find_path` calls threaded through one cache.
Returns each call's result paired with its fresh-computation flag, and the
final cache. -/
def runCached : List PKey → PCache → List (List Coords × Bool) × PCache
  | [], cache => ([], cache)
  | k :: ks, cache =>
    let r1 := cachedStep k cache
    let r2 := runCached ks r1.2.1
    ((r1.1, r1.2.2) :: r2.1, r2.2)

/-- The per-call results of a `cached_find_path` call sequence starting
from the decorator's initial empty cache. -/
def cachedResults (ks : List PKey) : List (List Coords × Bool) :=
  (runCached ks []).1

/-- Two cells are 4-adjacent: one is reached from the other by a non-`WAIT`
direction step. -/
def adjacentCell (a b : Coords) : Prop :=
  ∃ d ∈ directionsDefault, b = stepCell a d

instance (a b : Coords) : Decidable (adjacentCell a b) := by
  unfold adjacentCell; infer_instance

/-- An admissible BFS path from `s` to `c`: nonempty, starts at `s`, ends at
`c`, consecutive cells 4-adjacent, and every cell after the head free (the
BFS start cell is enqueued without any check, so only the tail is
constrained). -/
def IsAPath (forbidden : Finset Coords) (width height : Int) (s : Coords)
    (p : List Coords) (c : Coords) : Prop :=
  p.head? = some s ∧ p.getLast? = some c ∧ List.Chain' adjacentCell p ∧
    ∀ x ∈ p.tail, freeCell forbidden width height x

/-- A fully valid path from `s` to `g`: nonempty, correct endpoints,
4-adjacent steps, every cell in bounds and unforbidden. This is the path
notion of the specification's path-validity guarantee. -/
def ValidPath (forbidden : Finset Coords) (width height : Int) (s g : Coords)
    (p : List Coords) : Prop :=
  p.head? = some s ∧ p.getLast? = some g ∧ List.Chain' adjacentCell p ∧
    ∀ x ∈ p, freeCell forbidden width height x

/-- An interior-free path from `s` to `g`: both endpoints are exempt from
the bounds/forbidden test. `find_path` results are of this shape because
either BFS direction exempts its own source cell. -/
def IsVPath (forbidden : Finset Coords) (width height : Int) (s g : Coords)
    (p : List Coords) : Prop :=
  p.head? = some s ∧ p.getLast? = some g ∧ List.Chain' adjacentCell p ∧
    ∀ x ∈ p.tail.dropLast, freeCell forbidden width height x

/-- Claim C1 instantiated at one input: the `find_path` result, when
non-empty, is a fully valid `start → goal` path of minimal length among all
such paths, and emptiness signals that no valid path exists (the embedded
function is total, so no exception can occur). -/
def claimC1At (s g : Coords) (forbidden : Finset Coords) (width height : Int) : Prop :=
  (findPath s g forbidden width height ≠ [] →
    ValidPath forbidden width height s g (findPath s g forbidden width height) ∧
    ∀ q, ValidPath forbidden width height s g q →
      (findPath s g forbidden width height).length ≤ q.length) ∧
  ((¬ ∃ q, ValidPath forbidden width height s g q) →
    findPath s g forbidden width height = [])

/-- The invariant of one `cached_path_decorator` entry `(s,g,F,w,h) ↦ p`:
`p` has the length of the uncached result, and a non-empty `p` is a
node-distinct interior-free `s → g` path of minimal length among
interior-free paths. -/
def GoodEntry (k : PKey) (p : List Coords) : Prop :=
  p.length = (findPath k.s k.g k.forb k.w k.h).length ∧
    (p = [] ∨
      (IsVPath k.forb k.w k.h k.s k.g p ∧ p.Nodup ∧
        ∀ q, IsVPath k.forb k.w k.h k.s k.g q → p.length ≤ q.length))

/-- Every cache entry satisfies `GoodEntry`. -/
def CacheGood (cache : PCache) : Prop :=
  ∀ e ∈ cache, GoodEntry e.1 e.2

/-- Cache keys are pairwise distinct (Python dict keys are unique). -/
def CacheKeysNodup (cache : PCache) : Prop :=
  (cache.map (fun e => e.1)).Nodup

/-- Whenever both orientations of an endpoint pair are cached (same
forbidden set and dimensions), their paths are exact reverses. -/
def CacheRevCons (cache : PCache) : Prop :=
  ∀ e1 ∈ cache, ∀ e2 ∈ cache,
    e2.1.s = e1.1.g → e2.1.g = e1.1.s → e2.1.forb = e1.1.forb →
    e2.1.w = e1.1.w → e2.1.h = e1.1.h → e2.2 = e1.2.reverse

/-- Claim C3 instantiated at one state: after `update_known_gems`, known
gems not currently visible are decremented by exactly one and purged iff
that takes them to zero or below, every visible gem is present with its
observed lifetime, and no remaining gem has lifetime ≤ 0. -/
def claimC3At (st : GameStateM) : Prop :=
  (∀ g ∈ st.knownGems, g.position ∉ st.visibleGems.map (fun v => v.position) →
    ((0 < g.ttl - 1 →
        ∃ g2 ∈ updateKnownGems st, g2.position = g.position ∧ g2.ttl = g.ttl - 1) ∧
      (g.ttl - 1 ≤ 0 → ∀ g2 ∈ updateKnownGems st, g2.position ≠ g.position))) ∧
  (∀ v ∈ st.visibleGems,
    ∃ g2 ∈ updateKnownGems st, g2.position = v.position ∧ g2.ttl = v.ttl) ∧
  (∀ g2 ∈ updateKnownGems st, 0 < g2.ttl)

/-- Claim C4 instantiated at one state: gem collection with
`COLLECTING_GEM` iff a known gem is reachable; otherwise exploration with
`EXPLORING` iff frontier cells (hidden cells adjacent to known floor)
exist; otherwise patrol with `PATROLLING`. -/
def claimC4At (st : GameStateM) : Prop :=
  (decideStrategy st = (.gemCollection, .COLLECTING_GEM) ↔
    ∃ g ∈ st.knownGems, g.reachable = true) ∧
  (decideStrategy st = (.exploration, .EXPLORING) ↔
    ((¬ ∃ g ∈ st.knownGems, g.reachable = true) ∧ hiddenFloorsFrontier st ≠ ∅)) ∧
  (((¬ ∃ g ∈ st.knownGems, g.reachable = true) ∧ hiddenFloorsFrontier st = ∅) →
    decideStrategy st = (.patrol, .PATROLLING))

/-- Claim C7 instantiated at one state: the per-tick gem update cycle run
twice on identical input equals one run. -/
def claimC7At (st : GameStateM) : Prop :=
  gemRefresh (gemRefresh st) = gemRefresh st

/-- Union of all candidate coverage sets of a `view_points` family. -/
def coverUnion (viewPoints : List (Coords × Finset Coords)) : Finset Coords :=
  viewPoints.foldr (fun e acc => e.2 ∪ acc) ∅

/-- Union of the coverage sets of the selected viewpoints. -/
def coverOfSelection (viewPoints : List (Coords × Finset Coords))
    (selection : Finset Coords) : Finset Coords :=
  coverUnion (viewPoints.filter (fun e => decide (e.1 ∈ selection)))

/-- Claim C8 instantiated at one input: if the union of all candidate sets
covers the universe, the greedy selection's union covers it; otherwise the
result is empty. -/
def claimC8At (viewPoints : List (Coords × Finset Coords)) (uni : Finset Coords) :
    Prop :=
  (uni ⊆ coverUnion viewPoints →
    uni ⊆ coverOfSelection viewPoints (solveSetCover viewPoints uni)) ∧
  (¬ uni ⊆ coverUnion viewPoints → solveSetCover viewPoints uni = ∅)

/-- The strictly intermediate cells of a cast line: every cell except the
origin and the target endpoint. -/
def lineIntermediate (origin target : Coords) : List Coords :=
  ((bresenhamLine origin target).drop 1).dropLast

/-- Visibility as worded by claim C9: in bounds, inside the inclusive
squared-distance circle, and no strictly intermediate line cell is a wall
or out of bounds. -/
def fovClaimVisible (grid : List (List Bool)) (position : Coords) (radius : Int)
    (c : Coords) : Prop :=
  (0 ≤ c.x ∧ c.x < ((grid.headD []).length : Int) ∧
    0 ≤ c.y ∧ c.y < (grid.length : Int)) ∧
  (c.x - position.x) * (c.x - position.x) +
      (c.y - position.y) * (c.y - position.y) ≤ radius * radius ∧
  ∀ s ∈ lineIntermediate position c,
    isBlocking grid ((grid.headD []).length : Int) (grid.length : Int) s = false

/-- Visibility as the code computes it (amended claim): in bounds, inside
the circle, and no cell of the cast line — origin and target included — is
a wall or out of bounds. -/
def fovCodeVisible (grid : List (List Bool)) (position : Coords) (radius : Int)
    (c : Coords) : Prop :=
  (0 ≤ c.x ∧ c.x < ((grid.headD []).length : Int) ∧
    0 ≤ c.y ∧ c.y < (grid.length : Int)) ∧
  (c.x - position.x) * (c.x - position.x) +
      (c.y - position.y) * (c.y - position.y) ≤ radius * radius ∧
  ∀ s ∈ bresenhamLine position c,
    isBlocking grid ((grid.headD []).length : Int) (grid.length : Int) s = false

/-- Claim C9 instantiated at one input: `compute_fov` returns exactly the
cells visible in the sense of `fovClaimVisible`. -/
def claimC9At (grid : List (List Bool)) (position : Coords) (radius : Int) : Prop :=
  ∀ c, c ∈ computeFov grid position radius ↔ fovClaimVisible grid position radius c

instance (st : GameStateM) : Decidable (claimC3At st) := by
  unfold claimC3At; infer_instance

instance (st : GameStateM) : Decidable (claimC4At st) := by
  unfold claimC4At; infer_instance

instance (st : GameStateM) : Decidable (claimC7At st) := by
  unfold claimC7At; infer_instance

instance (viewPoints : List (Coords × Finset Coords)) (uni : Finset Coords) :
    Decidable (claimC8At viewPoints uni) := by
  unfold claimC8At; infer_instance

instance (grid : List (List Bool)) (position : Coords) (radius : Int) (c : Coords) :
    Decidable (fovClaimVisible grid position radius c) := by
  unfold fovClaimVisible; infer_instance

instance (grid : List (List Bool)) (position : Coords) (radius : Int) (c : Coords) :
    Decidable (fovCodeVisible grid position radius c) := by
  unfold fovCodeVisible; infer_instance

instance (forbidden : Finset Coords) (width height : Int) (s : Coords)
    (p : List Coords) (c : Coords) :
    Decidable (IsAPath forbidden width height s p c) := by
  unfold IsAPath; infer_instance

instance (forbidden : Finset Coords) (width height : Int) (s g : Coords)
    (p : List Coords) : Decidable (ValidPath forbidden width height s g p) := by
  unfold ValidPath; infer_instance

instance (forbidden : Finset Coords) (width height : Int) (s g : Coords)
    (p : List Coords) : Decidable (IsVPath forbidden width height s g p) := by
  unfold IsVPath; infer_instance

/-- A path is shortest among admissible BFS paths from `s` to its end. -/
def IsShortestTo (forbidden : Finset Coords) (width height : Int) (s : Coords)
    (p : List Coords) (c : Coords) : Prop :=
  ∀ q, IsAPath forbidden width height s q c → p.length ≤ q.length

/-- The loop invariant of `bfs`: queue entries carry node-distinct shortest
admissible paths whose cells are visited; queue cells are distinct; visited
cells other than the start are free; queue path lengths form at most two
consecutive levels; and every visited cell is either still queued or fully
expanded and not a goal. -/
structure BfsInv (goalP : Coords → Bool) (forbidden : Finset Coords)
    (width height : Int) (s : Coords)
    (queue : List (Coords × List Coords)) (visited : Finset Coords) : Prop where
  startMem : s ∈ visited
  entries : ∀ e ∈ queue, IsAPath forbidden width height s e.2 e.1 ∧ e.2.Nodup ∧
    (∀ x ∈ e.2, x ∈ visited) ∧ IsShortestTo forbidden width height s e.2 e.1
  cellsNodup : (queue.map (fun e => e.1)).Nodup
  visitedFree : ∀ v ∈ visited, v = s ∨ freeCell forbidden width height v
  levels : ∃ L q1 q2, queue = q1 ++ q2 ∧ (∀ e ∈ q1, e.2.length = L) ∧
    (∀ e ∈ q2, e.2.length = L + 1)
  expanded : ∀ v ∈ visited, (∃ e ∈ queue, e.1 = v) ∨
    ((∀ d ∈ directionsDefault, freeCell forbidden width height (stepCell v d) →
        stepCell v d ∈ visited) ∧ goalP v = false)

/-- A gem with only position and lifetime set, as produced by the
observation parser before distances are filled in. -/
def plainGem (p : Coords) (t : Int) : Gem :=
  { position := p
    ttl := t
    distance2bot := none
    distance2enemies := []
    reachable := false }

/-- Concrete state: the bot at `(0,0)` on a `2 × 1` grid, one known
non-visible gem on the bot's own cell, one visible gem with observed
lifetime `0`. -/
def cexStateC3a : GameStateM :=
  { bot := ⟨0, 0⟩
    knownGems := [plainGem ⟨0, 0⟩ 5]
    visibleGems := [plainGem ⟨1, 0⟩ 0]
    visibleBots := []
    knownWalls := ∅
    knownFloors := ∅
    hiddenPositions := ∅
    caveRevealed := false
    behaviourState := .IDLE
    width := 2
    height := 1 }

/-- Concrete state: a visible gem sits on the bot's own cell. -/
def cexStateC3b : GameStateM :=
  { cexStateC3a with
    knownGems := []
    visibleGems := [plainGem ⟨0, 0⟩ 9] }

/-- Concrete state: `cave_revealed` is already set although a frontier cell
exists (`(1,0)` is hidden and adjacent to the known floor `(0,0)`), and no
gem is known. -/
def cexStateC4 : GameStateM :=
  { cexStateC3a with
    knownGems := []
    visibleGems := []
    caveRevealed := true
    knownFloors := {⟨0, 0⟩}
    hiddenPositions := {⟨1, 0⟩} }

/-- Concrete state: one known gem at `(1,0)` with lifetime `5`, currently
not visible. -/
def cexStateC7 : GameStateM :=
  { cexStateC3a with
    knownGems := [plainGem ⟨1, 0⟩ 5]
    visibleGems := [] }

/-- Concrete hidden/cave run start state: one hidden cell `(1,0)`, floor
`(0,0)` known, cave not yet revealed. -/
def cexStateC5 : GameStateM :=
  { cexStateC4 with caveRevealed := false }

/-- One concrete observation revealing the last hidden cell as floor. -/
def cexObsC5 : List (Finset Coords × Finset Coords) :=
  [(∅, {⟨1, 0⟩})]

/-- A concrete cache key: `(0,0) → (1,0)` on an empty 2×1 grid. -/
def kC2a : PKey :=
  ⟨⟨0, 0⟩, ⟨1, 0⟩, ∅, 2, 1⟩

/-- The same query with the endpoints reversed: `(1,0) → (0,0)`. -/
def kC2b : PKey :=
  ⟨⟨1, 0⟩, ⟨0, 0⟩, ∅, 2, 1⟩

theorem mem_gridFinset (width height : Int) (c : Coords) :
    c ∈ gridFinset width height ↔
      0 ≤ c.x ∧ c.x < width ∧ 0 ≤ c.y ∧ c.y < height := by
  unfold gridFinset
  simp only [Finset.mem_image, Finset.mem_product, Finset.mem_Ico, Prod.exists]
  constructor
  · rintro ⟨a, b, ⟨⟨ha0, ha1⟩, hb0, hb1⟩, rfl⟩
    exact ⟨ha0, ha1, hb0, hb1⟩
  · rintro ⟨h1, h2, h3, h4⟩
    exact ⟨c.x, c.y, ⟨⟨h1, h2⟩, h3, h4⟩, rfl⟩

theorem card_gridFinset (width height : Int) :
    (gridFinset width height).card = width.toNat * height.toNat := by
  unfold gridFinset
  rw [Finset.card_image_of_injective]
  · rw [Finset.card_product]
    simp [Int.toNat_of_nonneg]
  · intro a b hab
    cases a; cases b
    simpa [Coords.mk.injEq, Prod.ext_iff] using hab

theorem freeCell_mem_grid {forbidden : Finset Coords} {width height : Int}
    {c : Coords} (h : freeCell forbidden width height c) :
    c ∈ gridFinset width height := by
  rw [mem_gridFinset]
  exact h.1

theorem adjacentCell_symm {a b : Coords} (h : adjacentCell a b) : adjacentCell b a := by
  rcases h with ⟨d, hd, rfl⟩
  cases d with
  | LEFT =>
    exact ⟨.RIGHT, by decide, by
      cases a; simp [stepCell, Direction.value, Coords.mk.injEq]⟩
  | RIGHT =>
    exact ⟨.LEFT, by decide, by
      cases a; simp [stepCell, Direction.value, Coords.mk.injEq]⟩
  | UP =>
    exact ⟨.DOWN, by decide, by
      cases a; simp [stepCell, Direction.value, Coords.mk.injEq]⟩
  | DOWN =>
    exact ⟨.UP, by decide, by
      cases a; simp [stepCell, Direction.value, Coords.mk.injEq]⟩
  | WAIT => exact absurd hd (by decide)

theorem mem_prioritizedDirs (goal : Option Coords) (cur : Coords) (d : Direction) :
    d ∈ prioritizedDirs goal cur directionsDefault ↔ d ∈ directionsDefault := by
  unfold prioritizedDirs
  cases goal with
  | none => exact Iff.rfl
  | some g =>
    simp only
    split
    · cases d <;> decide
    · split
      · cases d <;> decide
      · exact Iff.rfl

theorem isAPath_single (forbidden : Finset Coords) (width height : Int) (s : Coords) :
    IsAPath forbidden width height s [s] s := by
  refine ⟨rfl, rfl, ?_, ?_⟩ <;> simp

theorem isAPath_ne_nil {forbidden : Finset Coords} {width height : Int}
    {s : Coords} {p : List Coords} {c : Coords}
    (h : IsAPath forbidden width height s p c) : p ≠ [] := by
  intro hnil
  rw [hnil] at h
  exact Option.noConfusion h.1

theorem isAPath_length_pos {forbidden : Finset Coords} {width height : Int}
    {s : Coords} {p : List Coords} {c : Coords}
    (h : IsAPath forbidden width height s p c) : 0 < p.length :=
  List.length_pos.mpr (isAPath_ne_nil h)

theorem isAPath_snoc {forbidden : Finset Coords} {width height : Int}
    {s : Coords} {p : List Coords} {c n : Coords}
    (h : IsAPath forbidden width height s p c) (hadj : adjacentCell c n)
    (hfree : freeCell forbidden width height n) :
    IsAPath forbidden width height s (p ++ [n]) n := by
  obtain ⟨h1, h2, h3, h4⟩ := h
  have hne : p ≠ [] := by
    intro hnil; rw [hnil] at h1; exact Option.noConfusion h1
  refine ⟨?_, ?_, ?_, ?_⟩
  · rwa [List.head?_append_of_ne_nil _ hne]
  · simp [List.getLast?_append]
  · rw [List.chain'_append]
    refine ⟨h3, List.chain'_singleton n, ?_⟩
    intro x hx y hy
    rw [h2] at hx
    have hx2 : c = x := by simpa using hx
    have hy2 : n = y := by simpa using hy
    rw [← hx2, ← hy2]
    exact hadj
  · obtain ⟨hd, tl, rfl⟩ := List.exists_cons_of_ne_nil hne
    intro x hx
    simp only [List.cons_append, List.tail_cons] at hx
    rcases List.mem_append.mp hx with hx1 | hx2
    · exact h4 x hx1
    · simp only [List.mem_singleton] at hx2
      rw [hx2]; exact hfree

theorem isAPath_decomp {forbidden : Finset Coords} {width height : Int}
    {s : Coords} {p : List Coords} {z : Coords}
    (hp : IsAPath forbidden width height s p z) :
    (p = [s] ∧ z = s) ∨
      ∃ q c, p = q ++ [z] ∧ IsAPath forbidden width height s q c ∧
        adjacentCell c z ∧ freeCell forbidden width height z := by
  obtain ⟨h1, h2, h3, h4⟩ := hp
  have hne : p ≠ [] := by
    intro hnil; rw [hnil] at h1; exact Option.noConfusion h1
  have hz : p.getLast hne = z := by
    have := List.getLast?_eq_getLast p hne
    rw [h2] at this
    exact (Option.some.injEq _ _).mp this.symm
  have hsplit : p = p.dropLast ++ [z] := by
    rw [← hz]
    exact (List.dropLast_append_getLast hne).symm
  by_cases hq : p.dropLast = []
  · left
    rw [hq] at hsplit
    simp only [List.nil_append] at hsplit
    rw [hsplit] at h1
    simp only [List.head?_cons, Option.some.injEq] at h1
    rw [hsplit, h1]
    exact ⟨rfl, rfl⟩
  · right
    have hchain := h3
    rw [hsplit, List.chain'_append] at hchain
    obtain ⟨hc1, _, hc3⟩ := hchain
    refine ⟨p.dropLast, p.dropLast.getLast hq, ?_, ⟨?_, ?_, hc1, ?_⟩, ?_, ?_⟩
    · exact hsplit
    · have := h1
      rw [hsplit, List.head?_append_of_ne_nil _ hq] at this
      exact this
    · exact List.getLast?_eq_getLast _ hq
    · intro x hx
      apply h4
      rw [hsplit, List.tail_append_of_ne_nil hq]
      exact List.mem_append_left _ hx
    · apply hc3
      · exact List.getLast?_eq_getLast _ hq
      · rfl
    · apply h4
      rw [hsplit, List.tail_append_of_ne_nil hq]
      exact List.mem_append_right _ (List.mem_singleton_self z)

theorem isAPath_reverse {forbidden : Finset Coords} {width height : Int}
    {s : Coords} {p : List Coords} {z : Coords}
    (hp : IsAPath forbidden width height s p z)
    (hs : freeCell forbidden width height s) :
    IsAPath forbidden width height z p.reverse s := by
  obtain ⟨h1, h2, h3, h4⟩ := hp
  refine ⟨?_, ?_, ?_, ?_⟩
  · rw [List.head?_reverse]; exact h2
  · rw [List.getLast?_reverse]; exact h1
  · rw [List.chain'_reverse]
    exact h3.imp (fun a b hab => adjacentCell_symm hab)
  · intro x hx
    have hxp : x ∈ p := by
      rw [← List.mem_reverse]
      exact List.mem_of_mem_tail hx
    have hps : ∃ t, p = s :: t := by
      cases p with
      | nil => exact Option.noConfusion h1
      | cons a t =>
        simp only [List.head?_cons, Option.some.injEq] at h1
        exact ⟨t, by rw [h1]⟩
    obtain ⟨t, rfl⟩ := hps
    rcases List.mem_cons.mp hxp with rfl | ht
    · exact hs
    · exact h4 x ht

theorem stepNeighbors_spec (forbidden : Finset Coords) (width height : Int)
    (cur : Coords) :
    ∀ (ds : List Direction) (visited : Finset Coords),
      (∀ x, x ∈ (stepNeighbors forbidden width height cur ds visited).1 ↔
        x ∈ visited ∨ x ∈ (stepNeighbors forbidden width height cur ds visited).2) ∧
      (stepNeighbors forbidden width height cur ds visited).2.Nodup ∧
      (∀ n ∈ (stepNeighbors forbidden width height cur ds visited).2,
        freeCell forbidden width height n ∧ n ∉ visited ∧ ∃ d ∈ ds, n = stepCell cur d) ∧
      (∀ d ∈ ds, freeCell forbidden width height (stepCell cur d) →
        stepCell cur d ∈ (stepNeighbors forbidden width height cur ds visited).1) ∧
      ((gridFinset width height \ (stepNeighbors forbidden width height cur ds visited).1).card +
          (stepNeighbors forbidden width height cur ds visited).2.length =
        (gridFinset width height \ visited).card) ∧
      visited ⊆ (stepNeighbors forbidden width height cur ds visited).1 := by
  intro ds
  induction ds with
  | nil =>
    intro visited
    refine ⟨?_, ?_, ?_, ?_, ?_, ?_⟩ <;> simp [stepNeighbors]
  | cons d ds ih =>
    intro visited
    by_cases hcond : freeCell forbidden width height (stepCell cur d) ∧
        stepCell cur d ∉ visited
    · have hunfold : stepNeighbors forbidden width height cur (d :: ds) visited =
          ((stepNeighbors forbidden width height cur ds
              (insert (stepCell cur d) visited)).1,
            stepCell cur d ::
              (stepNeighbors forbidden width height cur ds
                (insert (stepCell cur d) visited)).2) := by
        rw [stepNeighbors]
        rw [if_pos hcond]
      obtain ⟨ih1, ih2, ih3, ih4, ih5, ih6⟩ := ih (insert (stepCell cur d) visited)
      rw [hunfold]
      refine ⟨?_, ?_, ?_, ?_, ?_, ?_⟩
      · intro x
        rw [ih1 x]
        simp only [Finset.mem_insert, List.mem_cons]
        tauto
      · refine List.nodup_cons.mpr ⟨?_, ih2⟩
        intro hmem
        have := (ih3 _ hmem).2.1
        exact this (Finset.mem_insert_self _ _)
      · intro n hn
        rcases List.mem_cons.mp hn with rfl | hn2
        · exact ⟨hcond.1, hcond.2, d, List.mem_cons_self d ds, rfl⟩
        · obtain ⟨hf, hv, d2, hd2, he⟩ := ih3 n hn2
          exact ⟨hf, fun hx => hv (Finset.mem_insert_of_mem hx), d2,
            List.mem_cons_of_mem d hd2, he⟩
      · intro d2 hd2 hfree
        rcases List.mem_cons.mp hd2 with rfl | hd3
        · exact ih6 (Finset.mem_insert_self _ _)
        · exact ih4 d2 hd3 hfree
      · have hgrid : stepCell cur d ∈ gridFinset width height \ visited :=
          Finset.mem_sdiff.mpr ⟨freeCell_mem_grid hcond.1, hcond.2⟩
        have hins : gridFinset width height \ insert (stepCell cur d) visited =
            (gridFinset width height \ visited).erase (stepCell cur d) := by
          ext a
          simp only [Finset.mem_sdiff, Finset.mem_insert, Finset.mem_erase]
          tauto
        have hcard := Finset.card_erase_add_one hgrid
        rw [hins] at ih5
        simp only [List.length_cons]
        omega
      · intro a ha
        exact ih6 (Finset.mem_insert_of_mem ha)
    · have hunfold : stepNeighbors forbidden width height cur (d :: ds) visited =
          stepNeighbors forbidden width height cur ds visited := by
        rw [stepNeighbors]
        rw [if_neg hcond]
      obtain ⟨ih1, ih2, ih3, ih4, ih5, ih6⟩ := ih visited
      rw [hunfold]
      refine ⟨ih1, ih2, ?_, ?_, ih5, ih6⟩
      · intro n hn
        obtain ⟨hf, hv, d2, hd2, he⟩ := ih3 n hn
        exact ⟨hf, hv, d2, List.mem_cons_of_mem d hd2, he⟩
      · intro d2 hd2 hfree
        rcases List.mem_cons.mp hd2 with rfl | hd3
        · have hvis : stepCell cur d2 ∈ visited := by
            by_contra hnv
            exact hcond ⟨hfree, hnv⟩
          exact ih6 hvis
        · exact ih4 d2 hd3 hfree

theorem isAPath_end_mem {forbidden : Finset Coords} {width height : Int}
    {s : Coords} {p : List Coords} {z : Coords}
    (hp : IsAPath forbidden width height s p z) : z ∈ p := by
  have hne : p ≠ [] := isAPath_ne_nil hp
  have := List.getLast?_eq_getLast p hne
  rw [hp.2.1] at this
  have hz : z = p.getLast hne := (Option.some.injEq _ _).mp this
  rw [hz]
  exact List.getLast_mem hne

theorem isAPath_start_mem {forbidden : Finset Coords} {width height : Int}
    {s : Coords} {p : List Coords} {z : Coords}
    (hp : IsAPath forbidden width height s p z) : s ∈ p := by
  cases p with
  | nil => exact Option.noConfusion hp.1
  | cons a t =>
    have : a = s := by
      have := hp.1
      simp only [List.head?_cons, Option.some.injEq] at this
      exact this
    rw [← this]
    exact List.mem_cons_self a t

theorem bfsInv_head_min {goalP : Coords → Bool} {forbidden : Finset Coords}
    {width height : Int} {s : Coords} {e : Coords × List Coords}
    {rest : List (Coords × List Coords)} {visited : Finset Coords}
    (inv : BfsInv goalP forbidden width height s (e :: rest) visited) :
    ∀ e2 ∈ e :: rest, e.2.length ≤ e2.2.length := by
  obtain ⟨L, q1, q2, hq, h1, h2⟩ := inv.levels
  intro e2 he2
  cases q1 with
  | nil =>
    simp only [List.nil_append] at hq
    have hlen1 : e.2.length = L + 1 := h2 e (by rw [← hq]; exact List.mem_cons_self e rest)
    have hlen2 : e2.2.length = L + 1 := h2 e2 (by rw [← hq]; exact he2)
    omega
  | cons f q1t =>
    have hef : e = f := by
      rw [List.cons_append] at hq
      exact (List.cons.injEq _ _ _ _).mp hq |>.1
    have hlen1 : e.2.length = L := h1 e (by rw [hef]; exact List.mem_cons_self f q1t)
    have hlen2 : L ≤ e2.2.length := by
      have he2q : e2 ∈ (f :: q1t) ++ q2 := by rw [← hq]; exact he2
      rcases List.mem_append.mp he2q with hm | hm
      · rw [h1 e2 hm]
      · rw [h2 e2 hm]; omega
    omega

theorem bfsInv_unvisited_bound {goalP : Coords → Bool} {forbidden : Finset Coords}
    {width height : Int} {s : Coords} {queue : List (Coords × List Coords)}
    {visited : Finset Coords}
    (inv : BfsInv goalP forbidden width height s queue visited) :
    ∀ (q : List Coords) (z : Coords), IsAPath forbidden width height s q z →
      z ∉ visited → ∃ e ∈ queue, e.2.length < q.length := by
  have main : ∀ (n : Nat) (q : List Coords) (z : Coords), q.length ≤ n →
      IsAPath forbidden width height s q z → z ∉ visited →
      ∃ e ∈ queue, e.2.length < q.length := by
    intro n
    induction n with
    | zero =>
      intro q z hlen hq _
      exact absurd hlen (by have := isAPath_length_pos hq; omega)
    | succ n ih =>
      intro q z hlen hq hz
      rcases isAPath_decomp hq with ⟨rfl, rfl⟩ | ⟨q0, c, rfl, hq0, hadj, hfree⟩
      · exact absurd inv.startMem hz
      · have hlen0 : q0.length ≤ n := by
          rw [List.length_append, List.length_singleton] at hlen
          omega
        by_cases hc : c ∈ visited
        · rcases inv.expanded c hc with ⟨e, he, hec⟩ | ⟨hnbrs, _⟩
          · refine ⟨e, he, ?_⟩
            have hshort := (inv.entries e he).2.2.2
            rw [hec] at hshort
            have := hshort q0 hq0
            rw [List.length_append, List.length_singleton]
            omega
          · exfalso
            obtain ⟨d, hd, rfl⟩ := hadj
            exact hz (hnbrs d hd hfree)
        · obtain ⟨e, he, helen⟩ := ih q0 c hlen0 hq0 hc
          refine ⟨e, he, ?_⟩
          rw [List.length_append, List.length_singleton]
          omega
  intro q z hq hz
  exact main q.length q z le_rfl hq hz

theorem bfsInv_step {goalP : Coords → Bool} {forbidden : Finset Coords}
    {width height : Int} {s cur : Coords} {path : List Coords}
    {rest : List (Coords × List Coords)} {visited : Finset Coords}
    (goal : Option Coords)
    (inv : BfsInv goalP forbidden width height s ((cur, path) :: rest) visited)
    (hgoal : goalP cur = false) :
    BfsInv goalP forbidden width height s
      (rest ++ (stepNeighbors forbidden width height cur
          (prioritizedDirs goal cur directionsDefault) visited).2.map
          (fun n => (n, path ++ [n])))
      (stepNeighbors forbidden width height cur
          (prioritizedDirs goal cur directionsDefault) visited).1 ∧
    2 * (gridFinset width height \ (stepNeighbors forbidden width height cur
          (prioritizedDirs goal cur directionsDefault) visited).1).card +
        (rest ++ (stepNeighbors forbidden width height cur
          (prioritizedDirs goal cur directionsDefault) visited).2.map
          (fun n => (n, path ++ [n]))).length + 1 ≤
      2 * (gridFinset width height \ visited).card +
        ((cur, path) :: rest).length := by
  obtain ⟨sp1, sp2, sp3, sp4, sp5, sp6⟩ := stepNeighbors_spec forbidden width height cur
    (prioritizedDirs goal cur directionsDefault) visited
  set pr := prioritizedDirs goal cur directionsDefault with hpr
  set r := stepNeighbors forbidden width height cur pr visited with hr
  have hhead := inv.entries (cur, path) (List.mem_cons_self _ _)
  obtain ⟨hpathA, hpathN, hpathV, hpathS⟩ := hhead
  have hheadmin := bfsInv_head_min inv
  have hnewlen : ∀ e ∈ r.2.map (fun n => (n, path ++ [n])), e.2.length = path.length + 1 := by
    intro e he
    obtain ⟨n, _, rfl⟩ := List.mem_map.mp he
    simp
  have hnewA : ∀ n ∈ r.2, IsAPath forbidden width height s (path ++ [n]) n := by
    intro n hn
    obtain ⟨hfree, hnv, d, hd, rfl⟩ := sp3 n hn
    refine isAPath_snoc hpathA ⟨d, ?_, rfl⟩ hfree
    exact (mem_prioritizedDirs goal cur d).mp hd
  have hnewS : ∀ n ∈ r.2,
      IsShortestTo forbidden width height s (path ++ [n]) n := by
    intro n hn q hq
    have hnv := (sp3 n hn).2.1
    obtain ⟨e, he, helen⟩ := bfsInv_unvisited_bound inv q n hq hnv
    have hmin : path.length ≤ e.2.length := by simpa using hheadmin e he
    rw [List.length_append, List.length_singleton]
    omega
  have hrestmem : ∀ e ∈ rest, e ∈ (cur, path) :: rest := fun e he =>
    List.mem_cons_of_mem _ he
  have hcellvis : ∀ e ∈ (cur, path) :: rest, e.1 ∈ visited := by
    intro e he
    have h2 := inv.entries e he
    exact h2.2.2.1 e.1 (isAPath_end_mem h2.1)
  refine ⟨⟨?_, ?_, ?_, ?_, ?_, ?_⟩, ?_⟩
  · exact sp6 inv.startMem
  · intro e he
    rcases List.mem_append.mp he with he1 | he2
    · obtain ⟨hA, hN, hV, hS⟩ := inv.entries e (hrestmem e he1)
      exact ⟨hA, hN, fun x hx => sp6 (hV x hx), hS⟩
    · obtain ⟨n, hn, rfl⟩ := List.mem_map.mp he2
      refine ⟨hnewA n hn, ?_, ?_, ?_⟩
      · refine (@List.nodup_append _ path [n]).mpr ⟨hpathN, List.nodup_singleton n, ?_⟩
        intro x hx
        simp only [List.mem_singleton]
        intro hxn
        rw [hxn] at hx
        exact (sp3 n hn).2.1 (hpathV n hx)
      · intro x hx
        rcases List.mem_append.mp hx with hx1 | hx2
        · exact sp6 (hpathV x hx1)
        · simp only [List.mem_singleton] at hx2
          rw [hx2]
          exact (sp1 n).mpr (Or.inr hn)
      · exact hnewS n hn
  · have hmap : (rest ++ r.2.map (fun n => (n, path ++ [n]))).map (fun e => e.1) =
        rest.map (fun e => e.1) ++ r.2 := by
      rw [List.map_append, List.map_map]
      congr 1
      exact List.map_congr_left (fun n _ => rfl) |>.trans (List.map_id r.2)
    rw [hmap]
    refine List.nodup_append.mpr ⟨?_, sp2, ?_⟩
    · exact (List.nodup_cons.mp inv.cellsNodup).2
    · intro x hx
      obtain ⟨e, he, rfl⟩ := List.mem_map.mp hx
      intro hx2
      exact (sp3 _ hx2).2.1 (hcellvis e (hrestmem e he))
  · intro v hv
    rcases (sp1 v).mp hv with hv1 | hv2
    · exact inv.visitedFree v hv1
    · exact Or.inr (sp3 v hv2).1
  · obtain ⟨L, q1, q2, hq, h1, h2⟩ := inv.levels
    cases q1 with
    | nil =>
      simp only [List.nil_append] at hq
      refine ⟨L + 1, rest, r.2.map (fun n => (n, path ++ [n])), rfl, ?_, ?_⟩
      · intro e he
        exact h2 e (by rw [← hq]; exact List.mem_cons_of_mem _ he)
      · intro e he
        have hplen : path.length = L + 1 :=
          h2 (cur, path) (by rw [← hq]; exact List.mem_cons_self _ _)
        rw [hnewlen e he, hplen]
    | cons f q1t =>
      rw [List.cons_append] at hq
      have hef : (cur, path) = f := ((List.cons.injEq _ _ _ _).mp hq).1
      have hrest : rest = q1t ++ q2 := ((List.cons.injEq _ _ _ _).mp hq).2
      refine ⟨L, q1t, q2 ++ r.2.map (fun n => (n, path ++ [n])), ?_, ?_, ?_⟩
      · rw [hrest, List.append_assoc]
      · intro e he
        exact h1 e (List.mem_cons_of_mem f he)
      · intro e he
        rcases List.mem_append.mp he with he1 | he2
        · exact h2 e he1
        · have hplen : path.length = L := by
            have := h1 f (List.mem_cons_self f q1t)
            rw [← hef] at this
            exact this
          rw [hnewlen e he2, hplen]
  · intro v hv
    rcases (sp1 v).mp hv with hv1 | hv2
    · by_cases hvc : v = cur
      · refine Or.inr ⟨?_, by rw [hvc]; exact hgoal⟩
        intro d hd hfree
        rw [hvc] at hfree ⊢
        exact sp4 d ((mem_prioritizedDirs goal cur d).mpr hd) hfree
      · rcases inv.expanded v hv1 with ⟨e, he, hev⟩ | ⟨hnbrs, hgv⟩
        · rcases List.mem_cons.mp he with rfl | he2
          · exact absurd hev.symm (by simpa using hvc)
          · exact Or.inl ⟨e, List.mem_append_left _ he2, hev⟩
        · exact Or.inr ⟨fun d hd hfree => sp6 (hnbrs d hd hfree), hgv⟩
    · refine Or.inl ⟨(v, path ++ [v]), ?_, rfl⟩
      exact List.mem_append_right _ (List.mem_map_of_mem _ hv2)
  · have hk : (gridFinset width height \ r.1).card + r.2.length =
        (gridFinset width height \ visited).card := sp5
    simp only [List.length_append, List.length_map, List.length_cons]
    omega

theorem bfsLoop_spec (goalP : Coords → Bool) (isGoal : Coords → List Coords → Bool)
    (hiso : ∀ c p, isGoal c p = goalP c) (forbidden : Finset Coords)
    (width height : Int) (goal : Option Coords) (s : Coords) :
    ∀ (fuel : Nat) (queue : List (Coords × List Coords)) (visited : Finset Coords),
      BfsInv goalP forbidden width height s queue visited →
      2 * (gridFinset width height \ visited).card + queue.length ≤ fuel →
      (bfsLoop isGoal forbidden width height directionsDefault goal fuel queue visited
          = [] ∧
        ∀ z q, IsAPath forbidden width height s q z → goalP z = false) ∨
      (∃ z, IsAPath forbidden width height s
          (bfsLoop isGoal forbidden width height directionsDefault goal fuel queue
            visited) z ∧
        goalP z = true ∧
        (bfsLoop isGoal forbidden width height directionsDefault goal fuel queue
          visited).Nodup ∧
        ∀ q z2, IsAPath forbidden width height s q z2 → goalP z2 = true →
          (bfsLoop isGoal forbidden width height directionsDefault goal fuel queue
            visited).length ≤ q.length) := by
  intro fuel
  induction fuel with
  | zero =>
    intro queue visited inv hfuel
    cases queue with
    | nil =>
      left
      refine ⟨rfl, ?_⟩
      intro z q hq
      by_cases hz : z ∈ visited
      · rcases inv.expanded z hz with ⟨e, he, _⟩ | ⟨_, hg⟩
        · exact absurd he (List.not_mem_nil e)
        · exact hg
      · obtain ⟨e, he, _⟩ := bfsInv_unvisited_bound inv q z hq hz
        exact absurd he (List.not_mem_nil e)
    | cons e rest =>
      exfalso
      simp only [List.length_cons] at hfuel
      omega
  | succ fuel ih =>
    intro queue visited inv hfuel
    cases queue with
    | nil =>
      left
      refine ⟨rfl, ?_⟩
      intro z q hq
      by_cases hz : z ∈ visited
      · rcases inv.expanded z hz with ⟨e, he, _⟩ | ⟨_, hg⟩
        · exact absurd he (List.not_mem_nil e)
        · exact hg
      · obtain ⟨e, he, _⟩ := bfsInv_unvisited_bound inv q z hq hz
        exact absurd he (List.not_mem_nil e)
    | cons e rest =>
      obtain ⟨cur, path⟩ := e
      rw [bfsLoop]
      by_cases hg : goalP cur = true
      · rw [hiso cur path, hg]
        simp only [if_true]
        right
        have hhead := inv.entries (cur, path) (List.mem_cons_self _ _)
        refine ⟨cur, hhead.1, hg, hhead.2.1, ?_⟩
        intro q z2 hq hz2
        by_cases hz2v : z2 ∈ visited
        · rcases inv.expanded z2 hz2v with ⟨e2, he2, he2c⟩ | ⟨_, hgf⟩
          · have hs2 := (inv.entries e2 he2).2.2.2
            rw [he2c] at hs2
            have h6 := hs2 q hq
            have h7 : path.length ≤ e2.2.length := by
              simpa using bfsInv_head_min inv e2 he2
            exact le_trans h7 h6
          · rw [hgf] at hz2
            exact absurd hz2 (by simp)
        · obtain ⟨e2, he2, hlen2⟩ := bfsInv_unvisited_bound inv q z2 hq hz2v
          have h7 : path.length ≤ e2.2.length := by
            simpa using bfsInv_head_min inv e2 he2
          omega
      · rw [hiso cur path]
        simp only [Bool.not_eq_true] at hg
        rw [hg]
        simp only [Bool.false_eq_true, if_false]
        obtain ⟨inv2, hmeas⟩ := bfsInv_step goal inv hg
        exact ih _ _ inv2 (by omega)

theorem bfsInv_init (goalP : Coords → Bool) (forbidden : Finset Coords)
    (width height : Int) (s : Coords) :
    BfsInv goalP forbidden width height s [(s, [s])] {s} := by
  refine ⟨Finset.mem_singleton_self s, ?_, ?_, ?_, ?_, ?_⟩
  · intro e he
    rcases List.mem_singleton.mp he with rfl
    refine ⟨isAPath_single _ _ _ _, List.nodup_singleton s, ?_, ?_⟩
    · intro x hx
      rcases List.mem_singleton.mp hx with rfl
      exact Finset.mem_singleton_self _
    · intro q hq
      have := isAPath_length_pos hq
      simpa using this
  · simp
  · intro v hv
    exact Or.inl (Finset.mem_singleton.mp hv)
  · exact ⟨1, [(s, [s])], [], rfl, by simp, by simp⟩
  · intro v hv
    rcases Finset.mem_singleton.mp hv with rfl
    exact Or.inl ⟨(v, [v]), List.mem_singleton_self _, rfl⟩

theorem bfs_spec (goalP : Coords → Bool) (isGoal : Coords → List Coords → Bool)
    (hiso : ∀ c p, isGoal c p = goalP c) (forbidden : Finset Coords)
    (width height : Int) (goal : Option Coords) (s : Coords) :
    (bfs s isGoal forbidden width height none goal = [] ∧
      ∀ z q, IsAPath forbidden width height s q z → goalP z = false) ∨
    (∃ z, IsAPath forbidden width height s
        (bfs s isGoal forbidden width height none goal) z ∧
      goalP z = true ∧ (bfs s isGoal forbidden width height none goal).Nodup ∧
      ∀ q z2, IsAPath forbidden width height s q z2 → goalP z2 = true →
        (bfs s isGoal forbidden width height none goal).length ≤ q.length) := by
  have hfuel : 2 * (gridFinset width height \ {s}).card + 1 ≤
      2 * (width.toNat * height.toNat) + 1 := by
    have h1 : (gridFinset width height \ {s}).card ≤ (gridFinset width height).card :=
      Finset.card_le_card (Finset.sdiff_subset)
    rw [card_gridFinset] at h1
    omega
  have h := bfsLoop_spec goalP isGoal hiso forbidden width height goal s
    (2 * (width.toNat * height.toNat) + 1) [(s, [s])] {s}
    (bfsInv_init goalP forbidden width height s) (by simpa using hfuel)
  exact h

theorem bfsLoop_cons_goal (isGoal : Coords → List Coords → Bool)
    (forbidden : Finset Coords) (width height : Int) (dirs : List Direction)
    (goal : Option Coords) (fuel : Nat) (cur : Coords) (path : List Coords)
    (rest : List (Coords × List Coords)) (visited : Finset Coords)
    (hg : isGoal cur path = true) :
    bfsLoop isGoal forbidden width height dirs goal (fuel + 1)
      ((cur, path) :: rest) visited = path := by
  rw [bfsLoop, if_pos hg]

theorem tail_dropLast_comm {α : Type} (l : List α) :
    l.tail.dropLast = l.dropLast.tail := by
  cases l with
  | nil => rfl
  | cons a t => cases t <;> rfl

theorem findPath_self (s : Coords) (forbidden : Finset Coords)
    (width height : Int) : findPath s s forbidden width height = [s] := by
  have hfwd : bfs s (fun pos _ => pos = s) forbidden width height none (some s) = [s] := by
    unfold bfs
    exact bfsLoop_cons_goal _ _ _ _ _ _ _ _ _ _ _ (decide_eq_true rfl)
  unfold findPath
  rw [hfwd]
  simp

theorem mem_dropLast_or_getLast {α : Type} {l : List α} (hne : l ≠ []) {x : α}
    (hx : x ∈ l) : x ∈ l.dropLast ∨ x = l.getLast hne := by
  have hsplit := List.dropLast_append_getLast hne
  rw [← hsplit] at hx
  rcases List.mem_append.mp hx with h1 | h2
  · exact Or.inl h1
  · exact Or.inr (List.mem_singleton.mp h2)

theorem isAPath_end_free {forbidden : Finset Coords} {width height : Int}
    {s : Coords} {p : List Coords} {z : Coords}
    (hp : IsAPath forbidden width height s p z) (hne : z ≠ s) :
    freeCell forbidden width height z := by
  rcases isAPath_decomp hp with ⟨_, rfl⟩ | ⟨q, c, _, _, _, hfree⟩
  · exact absurd rfl hne
  · exact hfree

theorem apath_to_vpath {forbidden : Finset Coords} {width height : Int}
    {s g : Coords} {p : List Coords}
    (hp : IsAPath forbidden width height s p g) :
    IsVPath forbidden width height s g p := by
  obtain ⟨h1, h2, h3, h4⟩ := hp
  refine ⟨h1, h2, h3, ?_⟩
  intro x hx
  exact h4 x (List.dropLast_subset _ hx)

theorem vpath_to_apath {forbidden : Finset Coords} {width height : Int}
    {s g : Coords} {p : List Coords}
    (hp : IsVPath forbidden width height s g p)
    (hg : freeCell forbidden width height g) :
    IsAPath forbidden width height s p g := by
  obtain ⟨h1, h2, h3, h4⟩ := hp
  refine ⟨h1, h2, h3, ?_⟩
  intro x hx
  by_cases htne : p.tail = []
  · rw [htne] at hx
    exact absurd hx (List.not_mem_nil x)
  · rcases mem_dropLast_or_getLast htne hx with hx1 | hx2
    · exact h4 x hx1
    · have hlast : p.tail.getLast htne = g := by
        have hpne : p ≠ [] := by
          intro hnil; rw [hnil] at h2; exact Option.noConfusion h2
        have h5 : p.tail.getLast? = p.getLast? := by
          cases p with
          | nil => rfl
          | cons a t =>
            cases t with
            | nil => exact absurd rfl htne
            | cons b u =>
              simp only [List.tail_cons]
              rw [List.getLast?_cons_cons]
        have h6 := List.getLast?_eq_getLast p.tail htne
        rw [h5, h2] at h6
        exact ((Option.some.injEq _ _).mp h6).symm
      rw [hx2, hlast]
      exact hg

theorem vpath_reverse {forbidden : Finset Coords} {width height : Int}
    {s g : Coords} {p : List Coords}
    (hp : IsVPath forbidden width height s g p) :
    IsVPath forbidden width height g s p.reverse := by
  obtain ⟨h1, h2, h3, h4⟩ := hp
  refine ⟨?_, ?_, ?_, ?_⟩
  · rw [List.head?_reverse]; exact h2
  · rw [List.getLast?_reverse]; exact h1
  · rw [List.chain'_reverse]
    exact h3.imp (fun a b hab => adjacentCell_symm hab)
  · intro x hx
    apply h4
    have h5 : p.reverse.tail.dropLast = p.tail.dropLast.reverse := by
      rw [List.tail_reverse, List.dropLast_reverse, tail_dropLast_comm]
    rw [h5, List.mem_reverse] at hx
    exact hx

theorem bfs_goal_spec (forbidden : Finset Coords) (width height : Int)
    (goal : Option Coords) (s g : Coords) :
    (bfs s (fun pos _ => pos = g) forbidden width height none goal = [] ∧
      ∀ q, ¬ IsAPath forbidden width height s q g) ∨
    (IsAPath forbidden width height s
        (bfs s (fun pos _ => pos = g) forbidden width height none goal) g ∧
      (bfs s (fun pos _ => pos = g) forbidden width height none goal).Nodup ∧
      ∀ q, IsAPath forbidden width height s q g →
        (bfs s (fun pos _ => pos = g) forbidden width height none goal).length ≤
          q.length) := by
  rcases bfs_spec (fun pos => decide (pos = g)) (fun pos _ => pos = g)
      (fun c p => rfl) forbidden width height goal s with ⟨he, hall⟩ | ⟨z, hA, hz, hN, hmin⟩
  · left
    refine ⟨he, ?_⟩
    intro q hq
    have := hall g q hq
    simp at this
  · right
    have hzg : z = g := of_decide_eq_true hz
    rw [hzg] at hA
    refine ⟨hA, hN, ?_⟩
    intro q hq
    exact hmin q g hq (decide_eq_true rfl)

theorem validPath_to_apath {forbidden : Finset Coords} {width height : Int}
    {s g : Coords} {p : List Coords}
    (hp : ValidPath forbidden width height s g p) :
    IsAPath forbidden width height s p g :=
  ⟨hp.1, hp.2.1, hp.2.2.1, fun x hx => hp.2.2.2 x (List.mem_of_mem_tail hx)⟩

theorem apath_to_validPath {forbidden : Finset Coords} {width height : Int}
    {s g : Coords} {p : List Coords}
    (hp : IsAPath forbidden width height s p g)
    (hs : freeCell forbidden width height s) :
    ValidPath forbidden width height s g p := by
  obtain ⟨h1, h2, h3, h4⟩ := hp
  refine ⟨h1, h2, h3, ?_⟩
  intro x hx
  cases p with
  | nil => exact absurd hx (List.not_mem_nil x)
  | cons a t =>
    have ha : a = s := by
      simpa using h1
    rcases List.mem_cons.mp hx with rfl | ht
    · rw [ha]; exact hs
    · exact h4 x ht

theorem findPath_eq_of_fwd_ne {s g : Coords} {forbidden : Finset Coords}
    {width height : Int}
    (h : bfs s (fun pos _ => pos = g) forbidden width height none (some g) ≠ []) :
    findPath s g forbidden width height =
      bfs s (fun pos _ => pos = g) forbidden width height none (some g) := by
  unfold findPath
  rw [if_neg h]

theorem findPath_eq_of_fwd_eq {s g : Coords} {forbidden : Finset Coords}
    {width height : Int}
    (h : bfs s (fun pos _ => pos = g) forbidden width height none (some g) = []) :
    findPath s g forbidden width height =
      (bfs g (fun pos _ => pos = s) forbidden width height none (some s)).reverse := by
  unfold findPath
  rw [if_pos h]

theorem c1_claim_counterexample_aux :
    findPath ⟨0, 0⟩ ⟨1, 0⟩ {⟨0, 0⟩} 2 1 = [⟨0, 0⟩, ⟨1, 0⟩] := by decide

theorem validPath_single {forbidden : Finset Coords} {width height : Int}
    {s : Coords} (hs : freeCell forbidden width height s) :
    ValidPath forbidden width height s s [s] := by
  refine ⟨rfl, rfl, List.chain'_singleton s, ?_⟩
  intro x hx
  rcases List.mem_singleton.mp hx with rfl
  exact hs

theorem validPath_length_pos {forbidden : Finset Coords} {width height : Int}
    {s g : Coords} {p : List Coords}
    (hp : ValidPath forbidden width height s g p) : 0 < p.length := by
  cases p with
  | nil => exact Option.noConfusion hp.1
  | cons a t => simp

/-- Claim C1, amended: for endpoints that are in bounds and not forbidden,
`find_path` returns a fully valid shortest path exactly when one exists and
the empty list exactly when none does. The raw claim fails for forbidden or
out-of-bounds endpoints (see the counterexample), because the BFS start cell
is enqueued unchecked in either search direction. -/
theorem c1_find_path_valid_minimal (s g : Coords) (forbidden : Finset Coords)
    (width height : Int) (hs : freeCell forbidden width height s)
    (hg : freeCell forbidden width height g) :
    claimC1At s g forbidden width height ∧
      ((∃ q, ValidPath forbidden width height s g q) →
        findPath s g forbidden width height ≠ []) := by
  by_cases hsg : s = g
  · subst hsg
    rw [claimC1At, findPath_self]
    refine ⟨⟨?_, ?_⟩, ?_⟩
    · intro _
      refine ⟨validPath_single hs, ?_⟩
      intro q hq
      have := validPath_length_pos hq
      simpa using this
    · intro hno
      exact absurd ⟨[s], validPath_single hs⟩ hno
    · intro _
      simp
  · rcases bfs_goal_spec forbidden width height (some g) s g with
      ⟨hfe, hfno⟩ | ⟨hfA, hfN, hfmin⟩
    · have hfp := findPath_eq_of_fwd_eq hfe
      rcases bfs_goal_spec forbidden width height (some s) g s with
        ⟨hre, _⟩ | ⟨hrA, _, _⟩
      · rw [hre] at hfp
        simp only [List.reverse_nil] at hfp
        refine ⟨⟨?_, ?_⟩, ?_⟩
        · intro hne
          exact absurd hfp hne
        · intro _
          exact hfp
        · intro ⟨q, hq⟩
          exact absurd (validPath_to_apath hq) (hfno q)
      · exfalso
        have := isAPath_reverse hrA hg
        exact hfno _ this
    · have hfne : bfs s (fun pos _ => pos = g) forbidden width height none (some g)
          ≠ [] := isAPath_ne_nil hfA
      have hfp := findPath_eq_of_fwd_ne hfne
      rw [claimC1At, hfp]
      have hvalid := apath_to_validPath hfA hs
      refine ⟨⟨?_, ?_⟩, ?_⟩
      · intro _
        refine ⟨hvalid, ?_⟩
        intro q hq
        exact hfmin q (validPath_to_apath hq)
      · intro hno
        exact absurd ⟨_, hvalid⟩ hno
      · intro _
        exact hfne

/-- Claim C1 as stated is false: with `start = (0,0)` forbidden on a `2 × 1`
grid and `goal = (1,0)`, `find_path` returns `[(0,0), (1,0)]`, which
contains the forbidden cell `(0,0)`. -/
theorem c1_find_path_counterexample : ¬ claimC1At ⟨0, 0⟩ ⟨1, 0⟩ {⟨0, 0⟩} 2 1 := by
  intro hcl
  have h1 := hcl.1 (by decide)
  have h2 := h1.1.2.2.2 ⟨0, 0⟩ (by decide)
  exact absurd h2 (by decide)

/-- Witness: on an open `3 × 1` grid the amended C1 theorem applies at
`(0,0) → (2,0)` and yields the concrete shortest-path guarantees. -/
theorem c1_find_path_valid_minimal_witness :
    freeCell ∅ 3 1 ⟨0, 0⟩ ∧ freeCell ∅ 3 1 ⟨2, 0⟩ ∧
      (claimC1At ⟨0, 0⟩ ⟨2, 0⟩ ∅ 3 1 ∧
        ((∃ q, ValidPath ∅ 3 1 ⟨0, 0⟩ ⟨2, 0⟩ q) →
          findPath ⟨0, 0⟩ ⟨2, 0⟩ ∅ 3 1 ≠ [])) :=
  ⟨by decide, by decide,
    c1_find_path_valid_minimal ⟨0, 0⟩ ⟨2, 0⟩ ∅ 3 1 (by decide) (by decide)⟩

/-- Claim C10: `find_path(s, s, …)` returns `[s]` for every cell `s`,
forbidden set, and bounds — the dequeued start cell is tested against the
goal before any bounds or forbidden check, so a forbidden or out-of-bounds
start is reachable from itself. -/
theorem c10_find_path_self (s : Coords) (forbidden : Finset Coords)
    (width height : Int) : findPath s s forbidden width height = [s] :=
  findPath_self s forbidden width height

/-- Claim C4 as stated is false: in `cexStateC4` the frontier is non-empty
(hidden `(1,0)` borders known floor `(0,0)`) and no gem is reachable, yet
`decide_strategy` selects patrol because the sticky `cave_revealed` flag is
already set. -/
theorem c4_decide_strategy_counterexample : ¬ claimC4At cexStateC4 := by decide

/-- Claim C4, amended: the exploration branch tests the sticky
`cave_revealed` flag, not frontier existence. Gem collection with
`COLLECTING_GEM` iff some known gem is reachable; otherwise exploration
with `EXPLORING` iff `cave_revealed` is still false; otherwise patrol with
the behaviour state at `PATROLLING`. -/
theorem c4_decide_strategy_amended (st : GameStateM) :
    (decideStrategy st = (.gemCollection, .COLLECTING_GEM) ↔
      ∃ g ∈ st.knownGems, g.reachable = true) ∧
    (decideStrategy st = (.exploration, .EXPLORING) ↔
      ((¬ ∃ g ∈ st.knownGems, g.reachable = true) ∧ st.caveRevealed = false)) ∧
    (((¬ ∃ g ∈ st.knownGems, g.reachable = true) ∧ st.caveRevealed = true) →
      decideStrategy st = (.patrol, .PATROLLING)) := by
  have hany : (st.knownGems.any fun g => g.reachable) = true ↔
      ∃ g ∈ st.knownGems, g.reachable = true := by
    simp [List.any_eq_true]
  unfold decideStrategy
  split_ifs with h1 h2 h3
  · refine ⟨⟨fun _ => hany.mp h1, fun _ => rfl⟩, ⟨?_, ?_⟩, ?_⟩
    · intro he; exact absurd he (by simp)
    · intro ⟨hno, _⟩; exact absurd (hany.mp h1) hno
    · intro ⟨hno, _⟩; exact absurd (hany.mp h1) hno
  · have hno : ¬ ∃ g ∈ st.knownGems, g.reachable = true := fun he =>
      h1 (hany.mpr he)
    have hcave : st.caveRevealed = false := by
      simpa using h2
    refine ⟨⟨?_, ?_⟩, ⟨fun _ => ⟨hno, hcave⟩, fun _ => rfl⟩, ?_⟩
    · intro he; exact absurd he (by simp)
    · intro he; exact absurd (hany.mpr he) h1
    · intro ⟨_, hcavet⟩; rw [hcave] at hcavet; exact absurd hcavet (by simp)
  · have hno : ¬ ∃ g ∈ st.knownGems, g.reachable = true := fun he =>
      h1 (hany.mpr he)
    refine ⟨⟨?_, ?_⟩, ⟨?_, ?_⟩, ?_⟩
    · intro he; exact absurd he (by simp [h3])
    · intro he; exact absurd (hany.mpr he) h1
    · intro he; exact absurd he (by simp [h3])
    · intro ⟨_, hcave⟩
      have hct : st.caveRevealed = true := by
        revert h2; cases st.caveRevealed <;> simp
      rw [hct] at hcave
      exact absurd hcave (by simp)
    · intro _; rw [h3]
  · have hno : ¬ ∃ g ∈ st.knownGems, g.reachable = true := fun he =>
      h1 (hany.mpr he)
    refine ⟨⟨?_, ?_⟩, ⟨?_, ?_⟩, ?_⟩
    · intro he; exact absurd he (by simp)
    · intro he; exact absurd (hany.mpr he) h1
    · intro he; exact absurd he (by simp)
    · intro ⟨_, hcave⟩
      have hct : st.caveRevealed = true := by
        revert h2; cases st.caveRevealed <;> simp
      rw [hct] at hcave
      exact absurd hcave (by simp)
    · intro _; rfl

/-- Claim C6: evaluating the cited decision path at the failing input. A
planner that yields no candidates makes `simple_tie_breaker` call `min` on
an empty dict, which raises `ValueError` (modelled by `none`): the decision
pass does not produce a move. -/
theorem c6_empty_candidates_raises :
    localStrategyDecide (fun _ => []) (fun _ _ => ([], ⊤)) cexStateC3a = none := rfl

/-- Claim C7 as stated is false: one `refresh` cycle on `cexStateC7` drops
the known non-visible gem's lifetime from 5 to 4, and an immediately
repeated cycle with the identical observation drops it again to 3. -/
theorem c7_refresh_not_idempotent_counterexample : ¬ claimC7At cexStateC7 := by decide

theorem updateGemsDict_cons (known : List Gem) (v : Gem) (vs : List Gem) :
    updateGemsDict known (v :: vs) =
      updateGemsDict
        (if known.any (fun o => o.position = v.position) then
          known.map (fun o => if o.position = v.position then v else o)
        else known ++ [v]) vs := rfl

theorem mem_updateGemsDict_of_not_vis {known vis : List Gem} {g : Gem}
    (hg : g ∈ known) (h : ∀ v ∈ vis, v.position ≠ g.position) :
    g ∈ updateGemsDict known vis := by
  induction vis generalizing known with
  | nil => exact hg
  | cons v vs ih =>
    rw [updateGemsDict_cons]
    refine ih ?_ (fun u hu => h u (List.mem_cons_of_mem v hu))
    split_ifs with hany
    · refine List.mem_map.mpr ⟨g, hg, ?_⟩
      rw [if_neg]
      intro hpos
      exact h v (List.mem_cons_self v vs) hpos.symm
    · exact List.mem_append_left _ hg

theorem self_mem_updateGemsDict_step (acc : List Gem) (v : Gem) :
    v ∈ (if acc.any (fun o => o.position = v.position) then
      acc.map (fun o => if o.position = v.position then v else o)
    else acc ++ [v]) := by
  split_ifs with hany
  · obtain ⟨o, ho, hop⟩ := List.any_eq_true.mp hany
    refine List.mem_map.mpr ⟨o, ho, ?_⟩
    rw [if_pos (of_decide_eq_true hop)]
  · exact List.mem_append_right _ (List.mem_singleton_self v)

theorem mem_updateGemsDict_self {known vis : List Gem} {v : Gem} (hv : v ∈ vis)
    (hN : (vis.map (fun x => x.position)).Nodup) :
    v ∈ updateGemsDict known vis := by
  obtain ⟨s1, s2, rfl⟩ := List.append_of_mem hv
  have hsplit : updateGemsDict known (s1 ++ v :: s2) =
      updateGemsDict (updateGemsDict known s1) (v :: s2) := by
    unfold updateGemsDict
    rw [List.foldl_append]
  rw [hsplit, updateGemsDict_cons]
  have hs2 : ∀ u ∈ s2, u.position ≠ v.position := by
    intro u hu hup
    have := hN
    rw [List.map_append, List.map_cons, List.nodup_append] at this
    have h2 := this.2.1
    rw [List.nodup_cons] at h2
    exact h2.1 (hup ▸ List.mem_map_of_mem _ hu)
  exact mem_updateGemsDict_of_not_vis (self_mem_updateGemsDict_step _ v) hs2

theorem mem_updateGemsDict_src {known vis : List Gem} {g : Gem}
    (hg : g ∈ updateGemsDict known vis) : g ∈ known ∨ g ∈ vis := by
  induction vis generalizing known with
  | nil => exact Or.inl hg
  | cons v vs ih =>
    rw [updateGemsDict_cons] at hg
    rcases ih hg with hstep | hvs
    · split_ifs at hstep with hany
      · obtain ⟨o, ho, heq⟩ := List.mem_map.mp hstep
        by_cases hop : o.position = v.position
        · rw [if_pos hop] at heq
          exact Or.inr (heq ▸ List.mem_cons_self v vs)
        · rw [if_neg hop] at heq
          exact Or.inl (heq ▸ ho)
      · rcases List.mem_append.mp hstep with hk | hv2
        · exact Or.inl hk
        · exact Or.inr (List.mem_singleton.mp hv2 ▸ List.mem_cons_self v vs)
    · exact Or.inr (List.mem_cons_of_mem v hvs)

theorem mem_updateKnownGems_src {st : GameStateM} {g2 : Gem}
    (h : g2 ∈ updateKnownGems st) :
    g2.position ≠ st.bot ∧
      ((∃ k ∈ st.knownGems, g2.position = k.position ∧ g2.ttl = k.ttl - 1 ∧
          0 < g2.ttl) ∨
        (∃ v ∈ st.visibleGems, g2.position = v.position ∧ g2.ttl = v.ttl)) := by
  unfold updateKnownGems at h
  have hfil := List.mem_filter.mp h
  have hbot : g2.position ≠ st.bot := by
    have := hfil.2
    simpa using this
  obtain ⟨m, hm, hme⟩ := List.mem_map.mp hfil.1
  have hpos : g2.position = m.position := by rw [← hme]
  have httl : g2.ttl = m.ttl := by rw [← hme]
  refine ⟨hbot, ?_⟩
  rcases mem_updateGemsDict_src hm with hdec | hvis
  · left
    have hdf := List.mem_filter.mp hdec
    obtain ⟨k, hk, hke⟩ := List.mem_map.mp hdf.1
    refine ⟨k, hk, ?_, ?_, ?_⟩
    · rw [hpos, ← hke]
    · rw [httl, ← hke]
    · have := hdf.2
      simp only [Bool.not_eq_true', decide_eq_false_iff_not, not_le] at this
      omega
  · right
    exact ⟨m, hvis, hpos, httl⟩

theorem mem_updateKnownGems_of_known {st : GameStateM} {k : Gem}
    (hk : k ∈ st.knownGems)
    (hvis : k.position ∉ st.visibleGems.map (fun v => v.position))
    (hbot : k.position ≠ st.bot) (httl : 0 < k.ttl - 1) :
    ∃ g2 ∈ updateKnownGems st, g2.position = k.position ∧ g2.ttl = k.ttl - 1 := by
  unfold updateKnownGems
  set d : Gem := { k with ttl := k.ttl - 1 } with hd
  have hdec : d ∈ (st.knownGems.map (fun g => { g with ttl := g.ttl - 1 })).filter
      (fun g => !decide (g.ttl ≤ 0)) := by
    refine List.mem_filter.mpr ⟨List.mem_map_of_mem _ hk, ?_⟩
    simp only [hd, Bool.not_eq_true', decide_eq_false_iff_not, not_le]
    omega
  have hmerged : d ∈ updateGemsDict ((st.knownGems.map
      (fun g => { g with ttl := g.ttl - 1 })).filter
      (fun g => !decide (g.ttl ≤ 0))) st.visibleGems := by
    refine mem_updateGemsDict_of_not_vis hdec ?_
    intro v hv hvp
    exact hvis (by rw [← hvp]; exact List.mem_map_of_mem _ hv)
  refine ⟨{ d with reachable := checkReachableGem st.bot d st.knownWalls st.width st.height }, ?_, rfl, rfl⟩
  refine List.mem_filter.mpr ⟨List.mem_map.mpr ⟨d, hmerged, rfl⟩, ?_⟩
  simpa using hbot

theorem mem_updateKnownGems_of_vis {st : GameStateM} {v : Gem}
    (hv : v ∈ st.visibleGems)
    (hN : (st.visibleGems.map (fun x => x.position)).Nodup)
    (hbot : v.position ≠ st.bot) :
    ∃ g2 ∈ updateKnownGems st, g2.position = v.position ∧ g2.ttl = v.ttl := by
  unfold updateKnownGems
  have hmerged := @mem_updateGemsDict_self ((st.knownGems.map
      (fun g => { g with ttl := g.ttl - 1 })).filter
      (fun g => !decide (g.ttl ≤ 0))) st.visibleGems v hv hN
  refine ⟨{ v with reachable := checkReachableGem st.bot v st.knownWalls st.width st.height }, ?_, rfl, rfl⟩
  refine List.mem_filter.mpr ⟨List.mem_map.mpr ⟨v, hmerged, rfl⟩, ?_⟩
  simpa using hbot

theorem updateKnownGems_purged {st : GameStateM} {k : Gem}
    (hk : k ∈ st.knownGems)
    (hknownN : (st.knownGems.map (fun x => x.position)).Nodup)
    (hvis : k.position ∉ st.visibleGems.map (fun v => v.position))
    (httl : k.ttl - 1 ≤ 0) :
    ∀ g2 ∈ updateKnownGems st, g2.position ≠ k.position := by
  intro g2 hg2 hpos
  obtain ⟨_, hsrc⟩ := mem_updateKnownGems_src hg2
  rcases hsrc with ⟨k2, hk2, hp2, ht2, hpos2⟩ | ⟨v, hv, hpv, _⟩
  · have hkk : k2 = k := by
      refine List.inj_on_of_nodup_map hknownN hk2 hk ?_
      rw [← hp2, hpos]
    rw [hkk] at ht2
    omega
  · exact hvis (by rw [← hpos, hpv]; exact List.mem_map_of_mem _ hv)

/-- Claim C3 as stated is false at two concrete inputs: in `cexStateC3a` the
known non-visible gem at the bot's own cell is removed outright (not kept at
lifetime 4), and the visible gem with observed lifetime 0 is retained; in
`cexStateC3b` a visible gem standing on the bot's cell is not present after
the update at all. -/
theorem c3_update_known_gems_counterexample :
    ¬ claimC3At cexStateC3a ∧ ¬ claimC3At cexStateC3b := by
  constructor <;> decide

/-- Claim C3, amended for the final `pop` of the bot's cell and for
non-positive observed lifetimes: after `update_known_gems`, (1) every known
gem that is neither visible nor on the bot's cell is decremented by exactly
one and purged iff that reaches zero or below, (2) every visible gem not on
the bot's cell is present with its observed lifetime, (3) no gem remains on
the bot's cell, and (4) every remaining gem that is not currently visible
has positive lifetime. -/
theorem c3_update_known_gems_amended (st : GameStateM)
    (hknownN : (st.knownGems.map (fun x => x.position)).Nodup)
    (hvisN : (st.visibleGems.map (fun x => x.position)).Nodup) :
    (∀ g ∈ st.knownGems, g.position ∉ st.visibleGems.map (fun v => v.position) →
      g.position ≠ st.bot →
      ((0 < g.ttl - 1 → ∃ g2 ∈ updateKnownGems st,
          g2.position = g.position ∧ g2.ttl = g.ttl - 1) ∧
        (g.ttl - 1 ≤ 0 → ∀ g2 ∈ updateKnownGems st, g2.position ≠ g.position))) ∧
    (∀ v ∈ st.visibleGems, v.position ≠ st.bot →
      ∃ g2 ∈ updateKnownGems st, g2.position = v.position ∧ g2.ttl = v.ttl) ∧
    (∀ g2 ∈ updateKnownGems st, g2.position ≠ st.bot) ∧
    (∀ g2 ∈ updateKnownGems st,
      g2.position ∉ st.visibleGems.map (fun v => v.position) → 0 < g2.ttl) := by
  refine ⟨?_, ?_, ?_, ?_⟩
  · intro g hg hvis hbot
    refine ⟨?_, ?_⟩
    · intro httl
      exact mem_updateKnownGems_of_known hg hvis hbot httl
    · intro httl
      exact updateKnownGems_purged hg hknownN hvis httl
  · intro v hv hbot
    exact mem_updateKnownGems_of_vis hv hvisN hbot
  · intro g2 hg2
    exact (mem_updateKnownGems_src hg2).1
  · intro g2 hg2 hnv
    rcases (mem_updateKnownGems_src hg2).2 with ⟨k, _, _, _, hpos⟩ | ⟨v, hv, hpv, _⟩
    · exact hpos
    · exact absurd (by rw [hpv]; exact List.mem_map_of_mem _ hv) hnv

/-- Witness for the amended C3 theorem: a state with one known non-visible
gem away from the bot and one visible gem, both behaving as stated. -/
theorem c3_update_known_gems_amended_witness :
    ((cexStateC7.knownGems.map (fun x => x.position)).Nodup ∧
      (cexStateC7.visibleGems.map (fun x => x.position)).Nodup) ∧
    (∀ g ∈ cexStateC7.knownGems,
      g.position ∉ cexStateC7.visibleGems.map (fun v => v.position) →
      g.position ≠ cexStateC7.bot →
      ((0 < g.ttl - 1 → ∃ g2 ∈ updateKnownGems cexStateC7,
          g2.position = g.position ∧ g2.ttl = g.ttl - 1) ∧
        (g.ttl - 1 ≤ 0 → ∀ g2 ∈ updateKnownGems cexStateC7,
          g2.position ≠ g.position))) := by
  refine ⟨⟨by decide, by decide⟩, ?_⟩
  exact (c3_update_known_gems_amended cexStateC7 (by decide) (by decide)).1

theorem gemRefresh_knownGems (st : GameStateM) :
    (gemRefresh st).knownGems = (updateKnownGems st).map
      (getBotEnemy2GemDistances st.bot st.visibleBots) ∧
    (gemRefresh st).bot = st.bot ∧
    (gemRefresh st).visibleGems = st.visibleGems ∧
    (gemRefresh st).visibleBots = st.visibleBots ∧
    (gemRefresh st).knownWalls = st.knownWalls ∧
    (gemRefresh st).width = st.width ∧ (gemRefresh st).height = st.height :=
  ⟨rfl, rfl, rfl, rfl, rfl, rfl, rfl⟩

/-- Claim C7, amended: the gem slice of `refresh` is not idempotent. Each
cycle decrements every surviving non-visible known gem once, so repeating
the cycle with the identical observation decrements twice: decay counts
calls, not distinct tick indices. -/
theorem c7_refresh_double_decrement (st : GameStateM) (g : Gem)
    (hmem : g ∈ st.knownGems)
    (hvis : g.position ∉ st.visibleGems.map (fun v => v.position))
    (hbot : g.position ≠ st.bot) (httl : 2 < g.ttl) :
    (∃ g1 ∈ (gemRefresh st).knownGems,
      g1.position = g.position ∧ g1.ttl = g.ttl - 1) ∧
    (∃ g2 ∈ (gemRefresh (gemRefresh st)).knownGems,
      g2.position = g.position ∧ g2.ttl = g.ttl - 2) := by
  obtain ⟨u1, hu1, hp1, ht1⟩ := mem_updateKnownGems_of_known hmem hvis hbot
    (by omega)
  have hin1 : ∃ g1 ∈ (gemRefresh st).knownGems,
      g1.position = g.position ∧ g1.ttl = g.ttl - 1 := by
    refine ⟨getBotEnemy2GemDistances st.bot st.visibleBots u1, ?_, ?_, ?_⟩
    · rw [(gemRefresh_knownGems st).1]
      exact List.mem_map_of_mem _ hu1
    · simpa [getBotEnemy2GemDistances] using hp1
    · simpa [getBotEnemy2GemDistances] using ht1
  refine ⟨hin1, ?_⟩
  obtain ⟨g1, hg1, hp1b, ht1b⟩ := hin1
  have hvis2 : g1.position ∉ (gemRefresh st).visibleGems.map
      (fun v => v.position) := by
    rw [(gemRefresh_knownGems st).2.2.1, hp1b]
    exact hvis
  have hbot2 : g1.position ≠ (gemRefresh st).bot := by
    rw [(gemRefresh_knownGems st).2.1, hp1b]
    exact hbot
  obtain ⟨u2, hu2, hp2, ht2⟩ := mem_updateKnownGems_of_known hg1 hvis2 hbot2
    (by omega)
  refine ⟨getBotEnemy2GemDistances (gemRefresh st).bot (gemRefresh st).visibleBots u2,
    ?_, ?_, ?_⟩
  · rw [(gemRefresh_knownGems (gemRefresh st)).1]
    exact List.mem_map_of_mem _ hu2
  · simpa [getBotEnemy2GemDistances, hp1b] using hp2
  · simp only [getBotEnemy2GemDistances]
    rw [ht2, ht1b]
    omega

/-- Witness for the amended C7 theorem at the concrete decay state: the gem
at `(1,0)` with lifetime 5 ends at 4 after one cycle and 3 after two. -/
theorem c7_refresh_double_decrement_witness :
    plainGem ⟨1, 0⟩ 5 ∈ cexStateC7.knownGems ∧
    (∃ g1 ∈ (gemRefresh cexStateC7).knownGems,
      g1.position = ⟨1, 0⟩ ∧ g1.ttl = 4) ∧
    (∃ g2 ∈ (gemRefresh (gemRefresh cexStateC7)).knownGems,
      g2.position = ⟨1, 0⟩ ∧ g2.ttl = 3) := by
  have h := c7_refresh_double_decrement cexStateC7 (plainGem ⟨1, 0⟩ 5)
    (by decide) (by decide) (by decide) (by decide)
  exact ⟨by decide, h.1, h.2⟩

theorem hiddenTick_hidden_subset (st : GameStateM)
    (obs : Finset Coords × Finset Coords) :
    (hiddenTick st obs).hiddenPositions ⊆ st.hiddenPositions := by
  unfold hiddenTick updateHiddenFloors updateHiddenPositions updateKnownFloors
    updateKnownWalls
  split_ifs <;> exact Finset.sdiff_subset

theorem hiddenTick_cave_true {st : GameStateM}
    (obs : Finset Coords × Finset Coords) (h : st.caveRevealed = true) :
    (hiddenTick st obs).caveRevealed = true := by
  unfold hiddenTick updateHiddenFloors updateHiddenPositions updateKnownFloors
    updateKnownWalls
  split_ifs
  · rfl
  · exact h

theorem hiddenTick_cave_of_empty {st : GameStateM}
    (obs : Finset Coords × Finset Coords)
    (h : (hiddenTick st obs).hiddenPositions = ∅) :
    (hiddenTick st obs).caveRevealed = true := by
  unfold hiddenTick at h ⊢
  set st1 := updateHiddenPositions (updateKnownFloors (updateKnownWalls st obs.1)
    obs.2) with hst1
  have hhid : (updateHiddenFloors st1).hiddenPositions = st1.hiddenPositions := by
    unfold updateHiddenFloors
    split_ifs <;> rfl
  rw [hhid] at h
  have hfr : hiddenFloorsFrontier st1 = ∅ := by
    unfold hiddenFloorsFrontier
    rw [h]
    exact Finset.filter_empty _
  unfold updateHiddenFloors
  rw [if_pos hfr]

theorem hiddenRun_append (st : GameStateM)
    (l1 l2 : List (Finset Coords × Finset Coords)) :
    hiddenRun st (l1 ++ l2) = hiddenRun (hiddenRun st l1) l2 := by
  unfold hiddenRun
  exact List.foldl_append _ _ _ _

theorem hiddenRun_hidden_subset (st : GameStateM)
    (obss : List (Finset Coords × Finset Coords)) :
    (hiddenRun st obss).hiddenPositions ⊆ st.hiddenPositions := by
  induction obss generalizing st with
  | nil => exact subset_rfl
  | cons o os ih =>
    have h1 : hiddenRun st (o :: os) = hiddenRun (hiddenTick st o) os := rfl
    rw [h1]
    exact subset_trans (ih (hiddenTick st o)) (hiddenTick_hidden_subset st o)

theorem hiddenRun_cave_true {st : GameStateM}
    (obss : List (Finset Coords × Finset Coords)) (h : st.caveRevealed = true) :
    (hiddenRun st obss).caveRevealed = true := by
  induction obss generalizing st with
  | nil => exact h
  | cons o os ih =>
    have h1 : hiddenRun st (o :: os) = hiddenRun (hiddenTick st o) os := rfl
    rw [h1]
    exact ih (hiddenTick_cave_true o h)

/-- Claim C5: across every run of per-tick updates the hidden set never
gains an element, and from the first tick after which the hidden set is
empty, `cave_revealed` is true and stays true for the rest of the run
(`update_hidden_floors` sets it that tick, since the frontier is a subset
of the hidden set, and nothing ever clears it). -/
theorem c5_hidden_monotone_cave_sticky (st : GameStateM)
    (obss : List (Finset Coords × Finset Coords)) (i j : Nat) (hij : i ≤ j) :
    (hiddenRun st (obss.take j)).hiddenPositions ⊆
      (hiddenRun st (obss.take i)).hiddenPositions ∧
    (1 ≤ i → i ≤ obss.length →
      (hiddenRun st (obss.take i)).hiddenPositions = ∅ →
      (hiddenRun st (obss.take j)).caveRevealed = true) := by
  have hsplit : obss.take j = obss.take i ++ (obss.drop i).take (j - i) := by
    rw [← List.take_add]
    congr 1
    omega
  constructor
  · rw [hsplit, hiddenRun_append]
    exact hiddenRun_hidden_subset _ _
  · intro hi hilen hempty
    rw [hsplit, hiddenRun_append]
    refine hiddenRun_cave_true _ ?_
    obtain ⟨i0, rfl⟩ : ∃ i0, i = i0 + 1 := ⟨i - 1, by omega⟩
    have htake : obss.take (i0 + 1) = obss.take i0 ++ [obss.getD i0 default] := by
      rw [List.take_succ]
      congr 1
      have hlt : i0 < obss.length := by omega
      rw [List.getElem?_eq_getElem hlt]
      simp [List.getD, List.getElem?_eq_getElem hlt]
    rw [htake, hiddenRun_append] at hempty ⊢
    have hone : hiddenRun (hiddenRun st (obss.take i0)) [obss.getD i0 default] =
        hiddenTick (hiddenRun st (obss.take i0)) (obss.getD i0 default) := rfl
    rw [hone] at hempty ⊢
    exact hiddenTick_cave_of_empty _ hempty

/-- Witness: the single-tick run on the concrete state reveals the last
hidden cell, after which `cave_revealed` is true. -/
theorem c5_hidden_monotone_cave_sticky_witness :
    (1 : Nat) ≤ 1 ∧
    ((hiddenRun cexStateC5 (cexObsC5.take 1)).hiddenPositions ⊆
        (hiddenRun cexStateC5 (cexObsC5.take 1)).hiddenPositions ∧
      (1 ≤ 1 → 1 ≤ cexObsC5.length →
        (hiddenRun cexStateC5 (cexObsC5.take 1)).hiddenPositions = ∅ →
        (hiddenRun cexStateC5 (cexObsC5.take 1)).caveRevealed = true)) ∧
    (hiddenRun cexStateC5 (cexObsC5.take 1)).caveRevealed = true := by
  have h := c5_hidden_monotone_cave_sticky cexStateC5 cexObsC5 1 1 le_rfl
  exact ⟨le_rfl, h, h.2 le_rfl (by decide) (by decide)⟩

theorem mem_coverUnion {vps : List (Coords × Finset Coords)} {x : Coords} :
    x ∈ coverUnion vps ↔ ∃ e ∈ vps, x ∈ e.2 := by
  induction vps with
  | nil => simp [coverUnion]
  | cons e es ih =>
    unfold coverUnion at ih ⊢
    simp only [List.foldr_cons, Finset.mem_union, ih]
    constructor
    · rintro (h1 | ⟨f, hf, hx⟩)
      · exact ⟨e, List.mem_cons_self e es, h1⟩
      · exact ⟨f, List.mem_cons_of_mem e hf, hx⟩
    · rintro ⟨f, hf, hx⟩
      rcases List.mem_cons.mp hf with rfl | hf2
      · exact Or.inl hx
      · exact Or.inr ⟨f, hf2, hx⟩

theorem coverOfSelection_mono {vps : List (Coords × Finset Coords)}
    {s1 s2 : Finset Coords} (h : s1 ⊆ s2) :
    coverOfSelection vps s1 ⊆ coverOfSelection vps s2 := by
  intro x hx
  rw [coverOfSelection, mem_coverUnion] at hx ⊢
  obtain ⟨e, he, hx2⟩ := hx
  have hf := List.mem_filter.mp he
  exact ⟨e, List.mem_filter.mpr ⟨hf.1, by
    have := of_decide_eq_true hf.2
    exact decide_eq_true (h this)⟩, hx2⟩

theorem subset_coverOfSelection {vps : List (Coords × Finset Coords)}
    {e : Coords × Finset Coords} {sel : Finset Coords}
    (he : e ∈ vps) (hk : e.1 ∈ sel) : e.2 ⊆ coverOfSelection vps sel := by
  intro x hx
  rw [coverOfSelection, mem_coverUnion]
  exact ⟨e, List.mem_filter.mpr ⟨he, decide_eq_true hk⟩, hx⟩

theorem bestSetChoice_fold (covered : Finset Coords) :
    ∀ (sets : List (Coords × Finset Coords))
      (acc : Option (Coords × Finset Coords) × Nat),
      (acc.1 = none → acc.2 = 0) →
      ((sets.foldl (fun acc e =>
          let coverage := (e.2 \ covered).card
          if acc.2 < coverage then (some e, coverage) else acc) acc).1 = none →
        acc.1 = none ∧ ∀ e ∈ sets, (e.2 \ covered).card = 0) ∧
      (∀ e, (sets.foldl (fun acc e =>
          let coverage := (e.2 \ covered).card
          if acc.2 < coverage then (some e, coverage) else acc) acc).1 = some e →
        e ∈ sets ∨ acc.1 = some e) := by
  intro sets
  induction sets with
  | nil =>
    intro acc hacc
    exact ⟨fun h => ⟨h, by simp⟩, fun e he => Or.inr he⟩
  | cons e0 es ih =>
    intro acc hacc
    simp only [List.foldl_cons]
    by_cases hcond : acc.2 < (e0.2 \ covered).card
    · rw [if_pos hcond]
      obtain ⟨ihn, ihs⟩ := ih (some e0, (e0.2 \ covered).card) (by simp)
      constructor
      · intro hnone
        obtain ⟨habs, _⟩ := ihn hnone
        exact absurd habs (by simp)
      · intro f hf
        rcases ihs f hf with hmem | hs
        · exact Or.inl (List.mem_cons_of_mem e0 hmem)
        · simp only [Option.some.injEq] at hs
          exact Or.inl (hs ▸ List.mem_cons_self e0 es)
    · rw [if_neg hcond]
      obtain ⟨ihn, ihs⟩ := ih acc hacc
      constructor
      · intro hnone
        obtain ⟨hanone, hall⟩ := ihn hnone
        refine ⟨hanone, ?_⟩
        intro f hf
        rcases List.mem_cons.mp hf with rfl | hf2
        · have := hacc hanone
          omega
        · exact hall f hf2
      · intro f hf
        rcases ihs f hf with hmem | hs
        · exact Or.inl (List.mem_cons_of_mem e0 hmem)
        · exact Or.inr hs

theorem bestSetChoice_none {sets : List (Coords × Finset Coords)}
    {covered : Finset Coords} (h : (bestSetChoice sets covered).1 = none) :
    ∀ e ∈ sets, e.2 ⊆ covered := by
  have hspec := (bestSetChoice_fold covered sets (none, 0) (fun _ => rfl)).1
  intro e he
  have hcard := (hspec h).2 e he
  rw [Finset.card_eq_zero, Finset.sdiff_eq_empty_iff_subset] at hcard
  exact hcard

theorem bestSetChoice_some {sets : List (Coords × Finset Coords)}
    {covered : Finset Coords} {e : Coords × Finset Coords}
    (h : (bestSetChoice sets covered).1 = some e) : e ∈ sets := by
  have hspec := (bestSetChoice_fold covered sets (none, 0) (fun _ => rfl)).2
  rcases hspec e h with hmem | habs
  · exact hmem
  · exact absurd habs (by simp)

theorem greedyLoop_covered_subset (uni : Finset Coords) :
    ∀ (fuel : Nat) (sets : List (Coords × Finset Coords))
      (covered selected : Finset Coords),
      (greedyLoop uni fuel sets covered selected).1 ⊆ covered ∪ coverUnion sets := by
  intro fuel
  induction fuel with
  | zero =>
    intro sets covered selected
    exact Finset.subset_union_left
  | succ fuel ih =>
    intro sets covered selected
    rw [greedyLoop]
    split_ifs with hcu
    · exact Finset.subset_union_left
    · cases hbest : (bestSetChoice sets covered).1 with
      | none => exact Finset.subset_union_left
      | some e =>
        refine subset_trans (ih _ _ _) ?_
        intro x hx
        rcases Finset.mem_union.mp hx with hx1 | hx2
        · rcases Finset.mem_union.mp hx1 with hx3 | hx4
          · exact Finset.mem_union_left _ hx3
          · refine Finset.mem_union_right _ ?_
            rw [mem_coverUnion]
            exact ⟨e, bestSetChoice_some hbest, hx4⟩
        · refine Finset.mem_union_right _ ?_
          rw [mem_coverUnion] at hx2 ⊢
          obtain ⟨f, hf, hxf⟩ := hx2
          exact ⟨f, List.mem_of_mem_eraseP hf, hxf⟩

theorem greedyLoop_spec (uni : Finset Coords) (vps : List (Coords × Finset Coords))
    (hsub : ∀ e ∈ vps, e.2 ⊆ uni) :
    ∀ (fuel : Nat) (sets : List (Coords × Finset Coords))
      (covered selected : Finset Coords),
      sets.length < fuel →
      (∀ e ∈ sets, e ∈ vps) →
      (sets.map (fun e => e.1)).Nodup →
      uni ⊆ covered ∪ coverUnion sets →
      covered ⊆ uni →
      covered ⊆ coverOfSelection vps selected →
      (greedyLoop uni fuel sets covered selected).1 = uni ∧
        uni ⊆ coverOfSelection vps (greedyLoop uni fuel sets covered selected).2 := by
  intro fuel
  induction fuel with
  | zero =>
    intro sets covered selected hlen hvps hN hcover hcu hcsel
    exact absurd hlen (Nat.not_lt_zero _)
  | succ fuel ih =>
    intro sets covered selected hlen hvps hN hcover hcu hcsel
    rw [greedyLoop]
    split_ifs with hequ
    · exact ⟨hequ, hequ ▸ hcsel⟩
    · cases hbest : (bestSetChoice sets covered).1 with
      | none =>
        have hall := bestSetChoice_none hbest
        have huni : uni ⊆ covered := by
          intro x hx
          rcases Finset.mem_union.mp (hcover hx) with hx1 | hx2
          · exact hx1
          · obtain ⟨f, hf, hxf⟩ := mem_coverUnion.mp hx2
            exact hall f hf hxf
        exact absurd (Finset.Subset.antisymm hcu huni) hequ
      | some e =>
        have hemem := bestSetChoice_some hbest
        have hevps := hvps e hemem
        have hp : (fun p => decide (p.1 = e.1)) e = true := decide_eq_true rfl
        obtain ⟨a2, l1, l2, hl1, hpa, hsets, herase⟩ :=
          @List.exists_of_eraseP _ (fun q => decide (q.1 = e.1)) sets e hemem hp
        have hae : a2 = e := by
          have ha2k : a2.1 = e.1 := of_decide_eq_true hpa
          rcases List.mem_append.mp (by rw [← hsets]; exact hemem) with he1 | he2
          · exact absurd hp (by simpa using hl1 e he1)
          · rcases List.mem_cons.mp he2 with heq | he3
            · exact heq.symm
            · exfalso
              have hNs := hN
              rw [hsets, List.map_append, List.map_cons, List.nodup_append] at hNs
              have hnc := List.nodup_cons.mp hNs.2.1
              exact hnc.1 (ha2k ▸ List.mem_map_of_mem (fun e => e.1) he3)
        subst hae
        have hlen2 : (sets.eraseP (fun p => decide (p.1 = a2.1))).length < fuel := by
          rw [hsets] at hlen
          rw [herase, List.length_append]
          rw [List.length_append] at hlen
          simp only [List.length_cons] at hlen
          omega
        have hvps2 : ∀ f ∈ sets.eraseP (fun p => decide (p.1 = a2.1)), f ∈ vps :=
          fun f hf => hvps f (List.mem_of_mem_eraseP hf)
        have hN2 : ((sets.eraseP (fun p => decide (p.1 = a2.1))).map
            (fun e => e.1)).Nodup :=
          ((List.eraseP_sublist sets).map (fun e => e.1)).nodup hN
        have hcover2 : uni ⊆ (covered ∪ a2.2) ∪
            coverUnion (sets.eraseP (fun p => decide (p.1 = a2.1))) := by
          intro x hx
          rcases Finset.mem_union.mp (hcover hx) with hx1 | hx2
          · exact Finset.mem_union_left _ (Finset.mem_union_left _ hx1)
          · obtain ⟨f, hf, hxf⟩ := mem_coverUnion.mp hx2
            rw [hsets] at hf
            rcases List.mem_append.mp hf with hf1 | hf2
            · refine Finset.mem_union_right _ ?_
              rw [mem_coverUnion]
              exact ⟨f, by rw [herase]; exact List.mem_append_left _ hf1, hxf⟩
            · rcases List.mem_cons.mp hf2 with rfl | hf3
              · exact Finset.mem_union_left _ (Finset.mem_union_right _ hxf)
              · refine Finset.mem_union_right _ ?_
                rw [mem_coverUnion]
                exact ⟨f, by rw [herase]; exact List.mem_append_right _ hf3, hxf⟩
        have hcu2 : covered ∪ a2.2 ⊆ uni :=
          Finset.union_subset hcu (hsub a2 hevps)
        have hcsel2 : covered ∪ a2.2 ⊆
            coverOfSelection vps (insert a2.1 selected) := by
          refine Finset.union_subset ?_ ?_
          · exact subset_trans hcsel
              (coverOfSelection_mono (Finset.subset_insert _ _))
          · exact subset_coverOfSelection hevps (Finset.mem_insert_self _ _)
        exact ih _ _ _ hlen2 hvps2 hN2 hcover2 hcu2 hcsel2

/-- Claim C8 as stated is false: with one viewpoint covering `{(0,0),(1,0)}`
and universe `{(0,0)}`, a cover exists, but after selecting the viewpoint
`covered = {(0,0),(1,0)} ≠ universe` (set equality, not inclusion, is
tested), so the greedy loop ends without `covered == universe` and returns
the empty set. -/
theorem c8_solve_set_cover_counterexample :
    ¬ claimC8At [(⟨0, 0⟩, {⟨0, 0⟩, ⟨1, 0⟩})] {⟨0, 0⟩} := by
  intro h
  have h1 := h.1 (by decide)
  exact absurd h1 (by decide)

/-- Claim C8, amended: when every candidate coverage set is a subset of the
universe (and keys are unique, as in a Python dict), the greedy result
unioned covers the universe whenever the union of all candidate sets does,
and the result is empty whenever no cover exists. Without the subset
restriction, elements outside the universe make the `covered != universe`
equality test unattainable and the function returns empty despite an
existing cover. -/
theorem c8_solve_set_cover_amended (vps : List (Coords × Finset Coords))
    (uni : Finset Coords) (hsub : ∀ e ∈ vps, e.2 ⊆ uni)
    (hN : (vps.map (fun e => e.1)).Nodup) : claimC8At vps uni := by
  constructor
  · intro hcover
    have h := greedyLoop_spec uni vps hsub (vps.length + 1) vps ∅ ∅
      (by omega) (fun e he => he) hN (by simpa using hcover)
      (Finset.empty_subset _) (Finset.empty_subset _)
    unfold solveSetCover
    rw [if_pos h.1]
    exact h.2
  · intro hnc
    unfold solveSetCover
    rw [if_neg]
    intro hequ
    refine hnc ?_
    have hsubc := greedyLoop_covered_subset uni (vps.length + 1) vps ∅ ∅
    rw [hequ] at hsubc
    intro x hx
    rcases Finset.mem_union.mp (hsubc hx) with hx1 | hx2
    · exact absurd hx1 (Finset.not_mem_empty x)
    · exact hx2

/-- Witness: one viewpoint covering exactly the one-cell universe; the
greedy result covers it. -/
theorem c8_solve_set_cover_amended_witness :
    (∀ e ∈ [((⟨0, 0⟩ : Coords), ({⟨0, 0⟩} : Finset Coords))], e.2 ⊆ {⟨0, 0⟩}) ∧
    claimC8At [(⟨0, 0⟩, {⟨0, 0⟩})] {⟨0, 0⟩} :=
  ⟨by decide, c8_solve_set_cover_amended _ _ (by decide) (by decide)⟩

theorem abs_bounds_of_sq_le_sq {a r : Int} (h : a * a ≤ r * r) (hr : 0 ≤ r) :
    -r ≤ a ∧ a ≤ r := by
  constructor <;> nlinarith [mul_self_nonneg (a - r), mul_self_nonneg (a + r)]

theorem bresenhamLine_eval :
    bresenhamLine ⟨0, 0⟩ ⟨0, 2⟩ = [⟨0, 0⟩, ⟨0, 1⟩, ⟨0, 2⟩] ∧
    bresenhamLine ⟨0, 0⟩ ⟨2, 2⟩ = [⟨0, 0⟩, ⟨1, 1⟩, ⟨2, 2⟩] ∧
    bresenhamLine ⟨0, 0⟩ ⟨1, 2⟩ = [⟨0, 0⟩, ⟨0, 1⟩, ⟨1, 2⟩] ∧
    bresenhamLine ⟨0, 0⟩ ⟨2, 1⟩ = [⟨0, 0⟩, ⟨1, 0⟩, ⟨2, 1⟩] ∧
    bresenhamLine ⟨0, 2⟩ ⟨0, 0⟩ = [⟨0, 2⟩, ⟨0, 1⟩, ⟨0, 0⟩] := by
  decide

/-- Claim C9 as stated is false: on the `1 × 2` grid with a wall at `(1,0)`,
radius 1, origin `(0,0)`, the wall cell `(1,0)` has no strictly intermediate
line cell, so the claim marks it visible; the code checks every line cell
including the target itself and blocks it. -/
theorem c9_compute_fov_counterexample : ¬ claimC9At [[false, true]] ⟨0, 0⟩ 1 := by
  intro h
  have h1 := (h ⟨1, 0⟩).mpr (by decide)
  exact absurd h1 (by decide)

/-- Claim C9, amended: for a non-negative radius, `compute_fov` returns
exactly the in-bounds cells within the inclusive squared-distance circle
for which no cell of the cast Bresenham line — origin and target included —
is a wall or out of bounds. (A negative radius yields the empty set, since
Python's `range(-radius, radius + 1)` is then empty.) -/
theorem c9_compute_fov_amended (grid : List (List Bool)) (position : Coords)
    (radius : Int) (hr : 0 ≤ radius) (c : Coords) :
    c ∈ computeFov grid position radius ↔ fovCodeVisible grid position radius c := by
  unfold computeFov fovCodeVisible
  simp only [Finset.mem_image, Finset.mem_filter, Finset.mem_product,
    Finset.mem_Icc]
  constructor
  · rintro ⟨d, ⟨⟨hd1, hd2⟩, hbounds, hdist, hline⟩, rfl⟩
    refine ⟨hbounds, ?_, ?_⟩
    · have h1 : position.x + d.1 - position.x = d.1 := by ring
      have h2 : position.y + d.2 - position.y = d.2 := by ring
      simp only [h1, h2]
      exact hdist
    · intro s hs
      rw [List.any_eq_false] at hline
      simpa using hline s hs
  · rintro ⟨hbounds, hdist, hline⟩
    have hxx : (c.x - position.x) * (c.x - position.x) ≤ radius * radius := by
      nlinarith [mul_self_nonneg (c.y - position.y)]
    have hyy : (c.y - position.y) * (c.y - position.y) ≤ radius * radius := by
      nlinarith [mul_self_nonneg (c.x - position.x)]
    have hb1 : -radius ≤ c.x - position.x ∧ c.x - position.x ≤ radius :=
      abs_bounds_of_sq_le_sq hxx hr
    have hb2 : -radius ≤ c.y - position.y ∧ c.y - position.y ≤ radius :=
      abs_bounds_of_sq_le_sq hyy hr
    have hc : (⟨position.x + (c.x - position.x), position.y + (c.y - position.y)⟩ :
        Coords) = c := by
      cases c
      simp only [Coords.mk.injEq]
      constructor <;> ring
    refine ⟨(c.x - position.x, c.y - position.y), ⟨⟨hb1, hb2⟩, ?_, ?_, ?_⟩, hc⟩
    · dsimp only
      obtain ⟨h1, h2, h3, h4⟩ := hbounds
      refine ⟨by omega, by omega, by omega, by omega⟩
    · dsimp only
      exact hdist
    · dsimp only
      have hcl : bresenhamLine position
          ⟨position.x + (c.x - position.x), position.y + (c.y - position.y)⟩ =
          bresenhamLine position c := by rw [hc]
      rw [hcl, List.any_eq_false]
      intro s hs
      simpa using hline s hs

/-- Witness: on the open `2 × 1`-column grid with radius 1 from `(0,0)`, the
cell `(0,1)` — reached by a vertical cast through the `dx <= dy` branch — is
visible exactly as the amended characterisation states. -/
theorem c9_compute_fov_amended_witness :
    (0 : Int) ≤ 1 ∧
      (⟨0, 1⟩ ∈ computeFov [[false], [false]] ⟨0, 0⟩ 1 ↔
        fovCodeVisible [[false], [false]] ⟨0, 0⟩ 1 ⟨0, 1⟩) ∧
      ⟨0, 1⟩ ∈ computeFov [[false], [false]] ⟨0, 0⟩ 1 :=
  ⟨by decide, c9_compute_fov_amended [[false], [false]] ⟨0, 0⟩ 1 (by decide) ⟨0, 1⟩,
    by decide⟩

theorem findPath_unfree {s g : Coords} {forbidden : Finset Coords}
    {width height : Int} (hsg : s ≠ g)
    (hs : ¬ freeCell forbidden width height s)
    (hg : ¬ freeCell forbidden width height g) :
    findPath s g forbidden width height = [] := by
  have hfwd : bfs s (fun pos _ => pos = g) forbidden width height none (some g)
      = [] := by
    rcases bfs_goal_spec forbidden width height (some g) s g with ⟨he, _⟩ | ⟨hA, _, _⟩
    · exact he
    · exact absurd (isAPath_end_free hA (Ne.symm hsg)) hg
  rw [findPath_eq_of_fwd_eq hfwd]
  rcases bfs_goal_spec forbidden width height (some s) g s with ⟨he, _⟩ | ⟨hA, _, _⟩
  · rw [he]; rfl
  · exact absurd (isAPath_end_free hA hsg) hs

theorem findPath_no_vpath {s g : Coords} {forbidden : Finset Coords}
    {width height : Int} (hsg : s ≠ g)
    (hnov : ¬ ∃ q, IsVPath forbidden width height s g q) :
    findPath s g forbidden width height = [] := by
  have hfwd : bfs s (fun pos _ => pos = g) forbidden width height none (some g)
      = [] := by
    rcases bfs_goal_spec forbidden width height (some g) s g with ⟨he, _⟩ | ⟨hA, _, _⟩
    · exact he
    · exact absurd ⟨_, apath_to_vpath hA⟩ hnov
  rw [findPath_eq_of_fwd_eq hfwd]
  rcases bfs_goal_spec forbidden width height (some s) g s with ⟨he, _⟩ | ⟨hA, _, _⟩
  · rw [he]; rfl
  · exact absurd ⟨_, vpath_reverse (apath_to_vpath hA)⟩ hnov

theorem findPath_vpath_min {s g : Coords} {forbidden : Finset Coords}
    {width height : Int} (hsg : s ≠ g)
    (hfree : freeCell forbidden width height s ∨ freeCell forbidden width height g)
    {q0 : List Coords} (hq0 : IsVPath forbidden width height s g q0) :
    IsVPath forbidden width height s g (findPath s g forbidden width height) ∧
      (findPath s g forbidden width height).Nodup ∧
      ∀ q, IsVPath forbidden width height s g q →
        (findPath s g forbidden width height).length ≤ q.length := by
  by_cases hg : freeCell forbidden width height g
  · have hA0 := vpath_to_apath hq0 hg
    rcases bfs_goal_spec forbidden width height (some g) s g with ⟨_, hno⟩ |
      ⟨hA, hN, hmin⟩
    · exact absurd hA0 (hno q0)
    · have hfne : bfs s (fun pos _ => pos = g) forbidden width height none (some g)
          ≠ [] := isAPath_ne_nil hA
      rw [findPath_eq_of_fwd_ne hfne]
      exact ⟨apath_to_vpath hA, hN, fun q hq => hmin q (vpath_to_apath hq hg)⟩
  · have hs : freeCell forbidden width height s := by
      rcases hfree with h | h
      · exact h
      · exact absurd h hg
    have hfwd : bfs s (fun pos _ => pos = g) forbidden width height none (some g)
        = [] := by
      rcases bfs_goal_spec forbidden width height (some g) s g with ⟨he, _⟩ |
        ⟨hA, _, _⟩
      · exact he
      · exact absurd (isAPath_end_free hA (Ne.symm hsg)) hg
    rw [findPath_eq_of_fwd_eq hfwd]
    have hA0r : IsAPath forbidden width height g q0.reverse s :=
      vpath_to_apath (vpath_reverse hq0) hs
    rcases bfs_goal_spec forbidden width height (some s) g s with ⟨_, hno⟩ |
      ⟨hA, hN, hmin⟩
    · exact absurd hA0r (hno q0.reverse)
    · refine ⟨?_, ?_, ?_⟩
      · have := vpath_reverse (apath_to_vpath hA)
        exact this
      · exact List.nodup_reverse.mpr hN
      · intro q hq
        have hqr : IsAPath forbidden width height g q.reverse s :=
          vpath_to_apath (vpath_reverse hq) hs
        have := hmin q.reverse hqr
        simpa using this

theorem vpath_length_pos {forbidden : Finset Coords} {width height : Int}
    {s g : Coords} {p : List Coords}
    (hp : IsVPath forbidden width height s g p) : 0 < p.length := by
  cases p with
  | nil => exact Option.noConfusion hp.1
  | cons a t => simp

theorem vpath_single {forbidden : Finset Coords} {width height : Int}
    (s : Coords) : IsVPath forbidden width height s s [s] := by
  refine ⟨rfl, rfl, List.chain'_singleton s, ?_⟩
  intro x hx
  simp at hx

theorem findPath_goodEntry (k : PKey) :
    GoodEntry k (findPath k.s k.g k.forb k.w k.h) := by
  by_cases hsg : k.s = k.g
  · have hfp : findPath k.s k.g k.forb k.w k.h = [k.s] := by
      rw [hsg]
      exact findPath_self k.g k.forb k.w k.h
    refine ⟨rfl, Or.inr ⟨?_, ?_, ?_⟩⟩
    · rw [hfp]
      have h2 : IsVPath k.forb k.w k.h k.s k.g [k.s] := by
        rw [hsg]
        exact vpath_single k.g
      exact h2
    · rw [hfp]
      exact List.nodup_singleton _
    · intro q hq
      rw [hfp]
      have := vpath_length_pos hq
      simpa using this
  · by_cases hv : ∃ q, IsVPath k.forb k.w k.h k.s k.g q
    · by_cases hfree : freeCell k.forb k.w k.h k.s ∨ freeCell k.forb k.w k.h k.g
      · obtain ⟨q0, hq0⟩ := hv
        obtain ⟨hV, hN, hmin⟩ := findPath_vpath_min hsg hfree hq0
        exact ⟨rfl, Or.inr ⟨hV, hN, hmin⟩⟩
      · push_neg at hfree
        rw [findPath_unfree hsg hfree.1 hfree.2]
        exact ⟨by rw [findPath_unfree hsg hfree.1 hfree.2], Or.inl rfl⟩
    · rw [findPath_no_vpath hsg hv]
      exact ⟨by rw [findPath_no_vpath hsg hv], Or.inl rfl⟩

theorem findPath_length_symm (s g : Coords) (forbidden : Finset Coords)
    (width height : Int) :
    (findPath s g forbidden width height).length =
      (findPath g s forbidden width height).length := by
  by_cases hsg : s = g
  · rw [hsg]
  · by_cases hv : ∃ q, IsVPath forbidden width height s g q
    · by_cases hfree : freeCell forbidden width height s ∨
          freeCell forbidden width height g
      · obtain ⟨q0, hq0⟩ := hv
        obtain ⟨hV1, _, hmin1⟩ := findPath_vpath_min hsg hfree hq0
        obtain ⟨hV2, _, hmin2⟩ := findPath_vpath_min (Ne.symm hsg) hfree.symm
          (vpath_reverse hq0)
        have h1 := hmin1 (findPath g s forbidden width height).reverse
          (by simpa using vpath_reverse hV2)
        have h2 := hmin2 (findPath s g forbidden width height).reverse
          (vpath_reverse hV1)
        simp only [List.length_reverse] at h1 h2
        omega
      · push_neg at hfree
        rw [findPath_unfree hsg hfree.1 hfree.2,
          findPath_unfree (Ne.symm hsg) hfree.2 hfree.1]
    · have hv2 : ¬ ∃ q, IsVPath forbidden width height g s q := by
        rintro ⟨q, hq⟩
        exact hv ⟨q.reverse, vpath_reverse hq⟩
      rw [findPath_no_vpath hsg hv, findPath_no_vpath (Ne.symm hsg) hv2]

theorem getLast?_tail_of_ne_nil {α : Type} {l : List α} (h : l.tail ≠ []) :
    l.tail.getLast? = l.getLast? := by
  cases l with
  | nil => rfl
  | cons a t =>
    cases t with
    | nil => exact absurd rfl h
    | cons b u =>
      simp only [List.tail_cons]
      rw [List.getLast?_cons_cons]

theorem vpath_head_cons {forbidden : Finset Coords} {width height : Int}
    {s g : Coords} {p : List Coords}
    (hp : IsVPath forbidden width height s g p) : ∃ t, p = s :: t := by
  cases p with
  | nil => exact Option.noConfusion hp.1
  | cons a t =>
    have : a = s := by simpa using hp.1
    exact ⟨t, by rw [this]⟩

theorem vpath_append {forbidden : Finset Coords} {width height : Int}
    {a s g : Coords} {p1 q : List Coords}
    (hp1 : IsVPath forbidden width height a s p1)
    (hq : IsVPath forbidden width height s g q)
    (hs : freeCell forbidden width height s) :
    IsVPath forbidden width height a g (p1 ++ q.tail) ∧
      (p1 ++ q.tail).length + 1 = p1.length + q.length := by
  obtain ⟨qt, rfl⟩ := vpath_head_cons hq
  obtain ⟨p1t, rfl⟩ := vpath_head_cons hp1
  simp only [List.tail_cons]
  obtain ⟨hh1, hl1, hc1, hi1⟩ := hp1
  obtain ⟨hh2, hl2, hc2, hi2⟩ := hq
  have hchain2 := (List.chain'_cons'.mp hc2)
  constructor
  · refine ⟨?_, ?_, ?_, ?_⟩
    · simp
    · cases qt with
      | nil =>
        have hgs : s = g := by simpa using hl2
        simpa [← hgs] using hl1
      | cons b u =>
        have h8 : (p1t ++ b :: u) ≠ [] := by simp
        have h9 := getLast?_tail_of_ne_nil
          (show (a :: (p1t ++ b :: u)).tail ≠ [] by simpa using h8)
        simp only [List.tail_cons] at h9
        rw [List.cons_append, ← h9, List.getLast?_append_cons]
        rw [List.getLast?_cons_cons] at hl2
        exact hl2
    · rw [List.chain'_append]
      refine ⟨hc1, hchain2.2, ?_⟩
      intro x hx y hy
      rw [hl1] at hx
      have hx2 : s = x := by simpa using hx
      rw [← hx2]
      exact hchain2.1 y hy
    · intro x hx
      cases qt with
      | nil =>
        simp only [List.append_nil] at hx
        exact hi1 x hx
      | cons b u =>
        rw [List.cons_append, List.tail_cons] at hx
        rw [List.dropLast_append_cons] at hx
        rcases List.mem_append.mp hx with hx1 | hx2
        · by_cases hte : p1t = []
          · rw [hte] at hx1
            simp at hx1
          · rcases mem_dropLast_or_getLast hte hx1 with hx3 | hx4
            · exact hi1 x (by simpa using hx3)
            · have hle : p1t.getLast hte = s := by
                have h6 := List.getLast?_eq_getLast p1t hte
                have h7 : p1t.getLast? = (a :: p1t).getLast? := by
                  have := @getLast?_tail_of_ne_nil Coords (a :: p1t)
                    (by simpa using hte)
                  simpa using this
                rw [h6] at h7
                rw [hl1] at h7
                exact ((Option.some.injEq _ _).mp h7.symm).symm
              rw [hx4, hle]
              exact hs
        · exact hi2 x (by simpa using hx2)
  · simp only [List.length_append, List.length_cons]
    omega

theorem mem_interior_of_getElem {p : List Coords} {m : Nat} {x : Coords}
    (h1 : 1 ≤ m) (h2 : m + 1 < p.length) (hx : p[m]? = some x) :
    x ∈ p.tail.dropLast := by
  rw [tail_dropLast_comm]
  have hd : p.dropLast[m]? = some x := by
    rw [List.getElem?_dropLast, if_pos (by omega)]
    exact hx
  have ht : p.dropLast.tail[m - 1]? = some x := by
    rw [← List.drop_one, List.getElem?_drop]
    have hm : 1 + (m - 1) = m := by omega
    rw [hm]
    exact hd
  exact List.getElem?_mem ht

/-- Reusing the suffix of a cached shortest path from its first occurrence of
`s` (the `start in path` scan of `cached_path_decorator`) yields a good entry
for the key that starts at `s`. -/
theorem goodEntry_suffix {k0 : PKey} {p : List Coords}
    (hG : GoodEntry k0 p) {s : Coords} (hs : s ∈ p) (hne : s ≠ k0.s) :
    GoodEntry ⟨s, k0.g, k0.forb, k0.w, k0.h⟩ (p.drop (List.indexOf s p)) := by
  have hpne : p ≠ [] := List.ne_nil_of_mem hs
  have hGE : IsVPath k0.forb k0.w k0.h k0.s k0.g p ∧ p.Nodup ∧
      ∀ q, IsVPath k0.forb k0.w k0.h k0.s k0.g q → p.length ≤ q.length := by
    rcases hG.2 with h0 | h1
    · exact absurd h0 hpne
    · exact h1
  obtain ⟨hV, hN, hmin⟩ := hGE
  obtain ⟨hh, hl, hch, hint⟩ := hV
  set i := List.indexOf s p with hidef
  have hi : i < p.length := List.indexOf_lt_length.mpr hs
  have hpi : p[i] = s := List.getElem_indexOf hi
  have hpi? : p[i]? = some s := by rw [List.getElem?_eq_getElem hi, hpi]
  have h00 : p[0]? = some k0.s := by rw [← List.head?_eq_getElem?]; exact hh
  have hipos : 1 ≤ i := by
    rcases Nat.eq_zero_or_pos i with h0 | h1
    · rw [h0] at hpi?
      rw [h00] at hpi?
      exact absurd (Option.some.inj hpi?).symm hne
    · exact h1
  have hlast : p[p.length - 1]? = some k0.g := by
    rw [← List.getLast?_eq_getElem?]
    exact hl
  set q := p.drop i with hqdef
  have hql : q.length = p.length - i := by rw [hqdef, List.length_drop]
  have hqh : q.head? = some s := by
    rw [hqdef, List.head?_drop]
    exact hpi?
  by_cases hsg : s = k0.g
  · have hieq : i = p.length - 1 := by
      have hj : p.length - 1 < p.length := by omega
      have hg1 : p[p.length - 1] = k0.g := by
        have he := List.getElem?_eq_getElem hj
        rw [he] at hlast
        exact Option.some.inj hlast
      have hpij : p[i] = p[p.length - 1] := by rw [hpi, hsg, ← hg1]
      exact (hN.getElem_inj_iff).mp hpij
    have hq1 : q.length = 1 := by omega
    have hqe : q = [s] := by
      cases hq : q with
      | nil =>
        rw [hq] at hq1
        simp at hq1
      | cons a t =>
        rw [hq] at hq1 hqh
        simp only [List.length_cons] at hq1
        have ht : t = [] := List.length_eq_zero.mp (by omega)
        have ha : a = s := by simpa using hqh
        rw [ht, ha]
    rw [hqe]
    refine ⟨?_, Or.inr ⟨?_, ?_, ?_⟩⟩
    · show [s].length = (findPath s k0.g k0.forb k0.w k0.h).length
      rw [hsg, findPath_self]
    · show IsVPath k0.forb k0.w k0.h s k0.g [s]
      rw [hsg]
      exact vpath_single k0.g
    · exact List.nodup_singleton s
    · intro r hr
      have := vpath_length_pos hr
      simpa using this
  · have hine : i ≠ p.length - 1 := by
      intro hieq
      rw [hieq] at hpi?
      rw [hlast] at hpi?
      exact hsg (Option.some.inj hpi?).symm
    have hi2 : i + 1 < p.length := by omega
    have hsfree : freeCell k0.forb k0.w k0.h s :=
      hint s (mem_interior_of_getElem hipos hi2 hpi?)
    have hqlast : q.getLast? = some k0.g := by
      rw [hqdef, List.getLast?_eq_getElem?, List.length_drop, List.getElem?_drop]
      have he : i + (p.length - i - 1) = p.length - 1 := by omega
      rw [he]
      exact hlast
    have hqch : List.Chain' adjacentCell q := hch.suffix (List.drop_suffix i p)
    have hqint : ∀ x ∈ q.tail.dropLast, freeCell k0.forb k0.w k0.h x := by
      intro x hx
      rw [hqdef, List.tail_drop] at hx
      obtain ⟨j, hj⟩ := List.mem_iff_getElem?.mp hx
      rw [List.getElem?_dropLast] at hj
      by_cases hjlt : j < (p.drop (i + 1)).length - 1
      · rw [if_pos hjlt] at hj
        rw [List.getElem?_drop] at hj
        refine hint x (mem_interior_of_getElem (by omega) ?_ hj)
        rw [List.length_drop] at hjlt
        omega
      · rw [if_neg hjlt] at hj
        exact Option.noConfusion hj
    have hqV : IsVPath k0.forb k0.w k0.h s k0.g q := ⟨hqh, hqlast, hqch, hqint⟩
    have hqN : q.Nodup := (List.drop_sublist i p).nodup hN
    have hp1V : IsVPath k0.forb k0.w k0.h k0.s s (p.take (i + 1)) := by
      refine ⟨?_, ?_, hch.take (i + 1), ?_⟩
      · rw [List.head?_eq_getElem?, List.getElem?_take_of_lt (by omega)]
        exact h00
      · rw [List.getLast?_eq_getElem?, List.length_take]
        have hm1 : min (i + 1) p.length - 1 = i := by omega
        rw [hm1, List.getElem?_take_of_lt (by omega)]
        exact hpi?
      · intro x hx
        rw [tail_dropLast_comm] at hx
        obtain ⟨j, hj⟩ := List.mem_iff_getElem?.mp hx
        rw [← List.drop_one, List.getElem?_drop, List.getElem?_dropLast] at hj
        by_cases hjlt : 1 + j < (p.take (i + 1)).length - 1
        · rw [if_pos hjlt] at hj
          rw [List.length_take] at hjlt
          rw [List.getElem?_take_of_lt (by omega)] at hj
          refine hint x (mem_interior_of_getElem (by omega) (by omega) hj)
        · rw [if_neg hjlt] at hj
          exact Option.noConfusion hj
    have hqmin : ∀ r, IsVPath k0.forb k0.w k0.h s k0.g r →
        q.length ≤ r.length := by
      intro r hr
      have happ := vpath_append hp1V hr hsfree
      have hlen := hmin _ happ.1
      have hl1 : (p.take (i + 1)).length = i + 1 := by
        rw [List.length_take]
        omega
      have hl2 := happ.2
      rw [hl1] at hl2
      omega
    obtain ⟨hfV, hfN, hfmin⟩ := findPath_vpath_min hsg (Or.inl hsfree) hqV
    have hle1 : (findPath s k0.g k0.forb k0.w k0.h).length ≤ q.length :=
      hfmin q hqV
    have hle2 : q.length ≤ (findPath s k0.g k0.forb k0.w k0.h).length :=
      hqmin _ hfV
    refine ⟨?_, Or.inr ⟨hqV, hqN, hqmin⟩⟩
    show q.length = (findPath s k0.g k0.forb k0.w k0.h).length
    omega

theorem pkey_eq {a b : PKey} (h1 : a.s = b.s) (h2 : a.g = b.g)
    (h3 : a.forb = b.forb) (h4 : a.w = b.w) (h5 : a.h = b.h) : a = b := by
  cases a
  cases b
  simp only at h1 h2 h3 h4 h5
  rw [h1, h2, h3, h4, h5]

theorem lookupC_eq_none_iff {cache : PCache} {k : PKey} :
    lookupC cache k = none ↔ ∀ e ∈ cache, e.1 ≠ k := by
  unfold lookupC
  rw [Option.map_eq_none', List.find?_eq_none]
  simp

theorem lookupC_mem {cache : PCache} {k : PKey} {v : List Coords}
    (h : lookupC cache k = some v) : (k, v) ∈ cache := by
  unfold lookupC at h
  obtain ⟨e, he, hev⟩ := Option.map_eq_some'.mp h
  have h1 : e.1 = k :=
    of_decide_eq_true (@List.find?_some _ (fun e => decide (e.1 = k)) e cache he)
  have h2 : e ∈ cache := List.mem_of_find?_eq_some he
  rw [← h1, ← hev]
  exact h2

theorem entry_unique {cache : PCache} (hN : CacheKeysNodup cache)
    {k : PKey} {v1 v2 : List Coords} (h1 : (k, v1) ∈ cache)
    (h2 : (k, v2) ∈ cache) : v1 = v2 := by
  have := List.inj_on_of_nodup_map hN h1 h2 rfl
  exact congrArg Prod.snd this

theorem lookupC_append_left {c1 c2 : PCache} {k : PKey} {v : List Coords}
    (h : lookupC c1 k = some v) : lookupC (c1 ++ c2) k = some v := by
  unfold lookupC at h ⊢
  rw [List.find?_append]
  obtain ⟨e, he, hev⟩ := Option.map_eq_some'.mp h
  rw [he]
  simp [hev]

theorem lookupC_append_right {c1 c2 : PCache} {k : PKey}
    (h : lookupC c1 k = none) : lookupC (c1 ++ c2) k = lookupC c2 k := by
  unfold lookupC at h ⊢
  rw [List.find?_append]
  rw [Option.map_eq_none'] at h
  rw [h]
  rfl

theorem lookupC_append_self {cache : PCache} {k : PKey} {v : List Coords}
    (h : lookupC cache k = none) : lookupC (cache ++ [(k, v)]) k = some v := by
  rw [lookupC_append_right h]
  unfold lookupC
  simp [List.find?]

theorem cacheGood_append {cache : PCache} {k : PKey} {v : List Coords}
    (hG : CacheGood cache) (hgood : GoodEntry k v) :
    CacheGood (cache ++ [(k, v)]) := by
  intro e he
  rcases List.mem_append.mp he with h1 | h2
  · exact hG e h1
  · rw [List.mem_singleton.mp h2]
    exact hgood

theorem cacheKeysNodup_append {cache : PCache} {k : PKey} {v : List Coords}
    (hN : CacheKeysNodup cache) (h : lookupC cache k = none) :
    CacheKeysNodup (cache ++ [(k, v)]) := by
  unfold CacheKeysNodup at hN ⊢
  rw [List.map_append, List.nodup_append]
  refine ⟨hN, List.nodup_singleton _, ?_⟩
  intro a ha hb
  simp only [List.map_cons, List.map_nil, List.mem_singleton] at hb
  obtain ⟨e, he, hek⟩ := List.mem_map.mp ha
  rw [hb] at hek
  exact (lookupC_eq_none_iff.mp h) e he hek

theorem cacheRevCons_append {cache : PCache} {k : PKey} {v : List Coords}
    (hR : CacheRevCons cache)
    (hnew : ∀ e1 ∈ cache, e1.1.s = k.g → e1.1.g = k.s → e1.1.forb = k.forb →
        e1.1.w = k.w → e1.1.h = k.h → v = e1.2.reverse)
    (hself : k.s = k.g → v = v.reverse) :
    CacheRevCons (cache ++ [(k, v)]) := by
  intro e1 he1 e2 he2 h1 h2 h3 h4 h5
  rcases List.mem_append.mp he1 with hA | hA <;>
    rcases List.mem_append.mp he2 with hB | hB
  · exact hR e1 hA e2 hB h1 h2 h3 h4 h5
  · rw [List.mem_singleton.mp hB] at h1 h2 h3 h4 h5 ⊢
    exact hnew e1 hA h2.symm h1.symm h3.symm h4.symm h5.symm
  · rw [List.mem_singleton.mp hA] at h1 h2 h3 h4 h5 ⊢
    have hv := hnew e2 hB h1 h2 h3 h4 h5
    show e2.2 = v.reverse
    rw [hv, List.reverse_reverse]
  · rw [List.mem_singleton.mp hA] at h1 h2 h3 h4 h5 ⊢
    rw [List.mem_singleton.mp hB] at h1 h2 h3 h4 h5 ⊢
    exact hself h2.symm

/-- Reversing a good cache entry gives a good entry for the inverse key: the
`inverse_key` branch of `cached_path_decorator`. -/
theorem goodEntry_reverse {k : PKey} {p : List Coords}
    (h : GoodEntry ⟨k.g, k.s, k.forb, k.w, k.h⟩ p) : GoodEntry k p.reverse := by
  obtain ⟨hlen, hrest⟩ := h
  constructor
  · rw [List.length_reverse, hlen]
    exact findPath_length_symm k.g k.s k.forb k.w k.h
  · rcases hrest with h0 | ⟨hV, hN, hmin⟩
    · rw [h0]
      exact Or.inl rfl
    · refine Or.inr ⟨vpath_reverse hV, List.nodup_reverse.mpr hN, ?_⟩
      intro r hr
      have := hmin r.reverse (vpath_reverse hr)
      simpa using this

/-- A good entry whose key has equal endpoints is the singleton `[start]`. -/
theorem goodEntry_self_singleton {k : PKey} {q : List Coords}
    (h : GoodEntry k q) (hsg : k.s = k.g) : q = [k.s] := by
  obtain ⟨hlen, hrest⟩ := h
  rw [hsg, findPath_self] at hlen
  simp only [List.length_cons, List.length_nil] at hlen
  rcases hrest with h0 | ⟨hV, _, _⟩
  · rw [h0] at hlen
    simp at hlen
  · cases hq : q with
    | nil =>
      rw [hq] at hlen
      simp at hlen
    | cons a t =>
      rw [hq] at hlen hV
      simp only [List.length_cons] at hlen
      have ht : t = [] := List.length_eq_zero.mp (by omega)
      have ha : a = k.s := by
        have := hV.1
        simpa using this
      rw [ht, ha]

/-- One call of the `cached_path_decorator` wrapper: the returned value is a
good entry for the queried key, all three cache invariants are preserved, the
returned value is recorded under the key, existing entries persist, and the
wrapped `find_path` is not invoked when the inverse key is cached. -/
theorem cachedStep_spec (k : PKey) (cache : PCache)
    (hG : CacheGood cache) (hN : CacheKeysNodup cache)
    (hR : CacheRevCons cache) :
    GoodEntry k (cachedStep k cache).1 ∧
    CacheGood (cachedStep k cache).2.1 ∧
    CacheKeysNodup (cachedStep k cache).2.1 ∧
    CacheRevCons (cachedStep k cache).2.1 ∧
    lookupC (cachedStep k cache).2.1 k = some (cachedStep k cache).1 ∧
    (∀ k' v', lookupC cache k' = some v' →
      lookupC (cachedStep k cache).2.1 k' = some v') ∧
    (∀ v, lookupC cache ⟨k.g, k.s, k.forb, k.w, k.h⟩ = some v →
      (cachedStep k cache).2.2 = false) := by
  unfold cachedStep
  cases hmk : lookupC cache k with
  | some p =>
    dsimp only
    have hmem : (k, p) ∈ cache := lookupC_mem hmk
    refine ⟨hG _ hmem, hG, hN, hR, hmk, fun k' v' h => h, fun v _ => rfl⟩
  | none =>
    cases hinv : lookupC cache ⟨k.g, k.s, k.forb, k.w, k.h⟩ with
    | some p =>
      dsimp only
      have hmem : ((⟨k.g, k.s, k.forb, k.w, k.h⟩ : PKey), p) ∈ cache :=
        lookupC_mem hinv
      have hgood : GoodEntry k p.reverse := goodEntry_reverse (hG _ hmem)
      refine ⟨hgood, cacheGood_append hG hgood, cacheKeysNodup_append hN hmk,
        ?_, lookupC_append_self hmk, fun k' v' h => lookupC_append_left h,
        fun v _ => rfl⟩
      refine cacheRevCons_append hR ?_ ?_
      · intro e1 he1 h1 h2 h3 h4 h5
        have hkey : e1.1 = ⟨k.g, k.s, k.forb, k.w, k.h⟩ :=
          pkey_eq h1 h2 h3 h4 h5
        have he1' : ((⟨k.g, k.s, k.forb, k.w, k.h⟩ : PKey), e1.2) ∈ cache := by
          rw [← hkey]
          exact he1
        have := entry_unique hN hmem he1'
        rw [← this]
      · intro hsg
        exfalso
        have hkk : (⟨k.g, k.s, k.forb, k.w, k.h⟩ : PKey) = k := by
          refine pkey_eq ?_ ?_ rfl rfl rfl
        -- fields: (inv).s = k.g, target k.s: need k.g = k.s
          · exact hsg.symm
          · exact hsg
        rw [hkk] at hinv
        rw [hmk] at hinv
        exact Option.noConfusion hinv
    | none =>
      cases hfind : cache.find? (fun e =>
          decide (e.1.g = k.g ∧ e.1.forb = k.forb ∧ e.1.w = k.w ∧
            e.1.h = k.h ∧ k.s ∈ e.2)) with
      | some e =>
        dsimp only
        have hmem : e ∈ cache := List.mem_of_find?_eq_some hfind
        have hprop := of_decide_eq_true (@List.find?_some _ (fun e =>
          decide (e.1.g = k.g ∧ e.1.forb = k.forb ∧ e.1.w = k.w ∧
            e.1.h = k.h ∧ k.s ∈ e.2)) e cache hfind)
        obtain ⟨hg, hforb, hw, hh, hsmem⟩ := hprop
        have hGe : GoodEntry e.1 e.2 := hG e hmem
        have hne : k.s ≠ e.1.s := by
          intro heq
          have hkey : e.1 = k := pkey_eq heq.symm hg hforb hw hh
          exact (lookupC_eq_none_iff.mp hmk) e hmem hkey
        have hsfx := goodEntry_suffix hGe hsmem hne
        have hkey2 : (⟨k.s, e.1.g, e.1.forb, e.1.w, e.1.h⟩ : PKey) = k :=
          pkey_eq rfl hg hforb hw hh
        rw [hkey2] at hsfx
        have hgood : GoodEntry k (e.2.drop (e.2.indexOf k.s)) := hsfx
        refine ⟨hgood, cacheGood_append hG hgood, cacheKeysNodup_append hN hmk,
          ?_, lookupC_append_self hmk, fun k' v' h => lookupC_append_left h,
          fun v _ => rfl⟩
        refine cacheRevCons_append hR ?_ ?_
        · intro e1 he1 h1 h2 h3 h4 h5
          exfalso
          have hkey : e1.1 = ⟨k.g, k.s, k.forb, k.w, k.h⟩ :=
            pkey_eq h1 h2 h3 h4 h5
          exact (lookupC_eq_none_iff.mp hinv) e1 he1 hkey
        · intro hsg
          have hq := goodEntry_self_singleton hgood hsg
          rw [hq]
          rfl
      | none =>
        dsimp only
        have hgood : GoodEntry k (findPath k.s k.g k.forb k.w k.h) :=
          findPath_goodEntry k
        refine ⟨hgood, cacheGood_append hG hgood, cacheKeysNodup_append hN hmk,
          ?_, lookupC_append_self hmk, fun k' v' h => lookupC_append_left h,
          fun v hv => ?_⟩
        · refine cacheRevCons_append hR ?_ ?_
          · intro e1 he1 h1 h2 h3 h4 h5
            exfalso
            have hkey : e1.1 = ⟨k.g, k.s, k.forb, k.w, k.h⟩ :=
              pkey_eq h1 h2 h3 h4 h5
            exact (lookupC_eq_none_iff.mp hinv) e1 he1 hkey
          · intro hsg
            have hq := goodEntry_self_singleton hgood hsg
            rw [hq]
            rfl
        · exact Option.noConfusion hv

theorem runCached_append (l1 l2 : List PKey) :
    ∀ cache : PCache, (runCached (l1 ++ l2) cache).2 =
      (runCached l2 (runCached l1 cache).2).2 := by
  induction l1 with
  | nil => intro cache; rfl
  | cons k t ih =>
    intro cache
    rw [List.cons_append]
    show (runCached (t ++ l2) (cachedStep k cache).2.1).2 =
      (runCached l2 (runCached t (cachedStep k cache).2.1).2).2
    exact ih _

theorem runCached_inv (ks : List PKey) :
    ∀ cache : PCache, CacheGood cache → CacheKeysNodup cache →
    CacheRevCons cache →
    CacheGood (runCached ks cache).2 ∧ CacheKeysNodup (runCached ks cache).2 ∧
      CacheRevCons (runCached ks cache).2 := by
  induction ks with
  | nil => exact fun cache hG hN hR => ⟨hG, hN, hR⟩
  | cons k t ih =>
    intro cache hG hN hR
    obtain ⟨_, hG', hN', hR', _, _, _⟩ := cachedStep_spec k cache hG hN hR
    exact ih _ hG' hN' hR'

theorem runCached_persist (ks : List PKey) :
    ∀ cache : PCache, CacheGood cache → CacheKeysNodup cache →
    CacheRevCons cache → ∀ k' v, lookupC cache k' = some v →
    lookupC (runCached ks cache).2 k' = some v := by
  induction ks with
  | nil => exact fun cache _ _ _ k' v h => h
  | cons k t ih =>
    intro cache hG hN hR k' v h
    obtain ⟨_, hG', hN', hR', _, hpers, _⟩ := cachedStep_spec k cache hG hN hR
    exact ih _ hG' hN' hR' k' v (hpers k' v h)

theorem runCached_result (ks : List PKey) :
    ∀ (j : Nat) (cache : PCache) (k : PKey), ks[j]? = some k →
    (runCached ks cache).1[j]? =
      some ((cachedStep k (runCached (ks.take j) cache).2).1,
        (cachedStep k (runCached (ks.take j) cache).2).2.2) := by
  induction ks with
  | nil =>
    intro j cache k h
    simp at h
  | cons a t ih =>
    intro j cache k h
    have hrc : (runCached (a :: t) cache).1 =
        ((cachedStep a cache).1, (cachedStep a cache).2.2) ::
          (runCached t (cachedStep a cache).2.1).1 := rfl
    cases j with
    | zero =>
      have ha : a = k := by simpa using h
      subst ha
      rw [hrc, List.getElem?_cons_zero]
      rfl
    | succ m =>
      have ht : t[m]? = some k := by simpa using h
      have hres := ih m (cachedStep a cache).2.1 k ht
      rw [hrc, List.getElem?_cons_succ]
      exact hres

theorem runCached_take_persist (ks : List PKey) {n m : Nat} (hnm : n ≤ m)
    {k : PKey} {v : List Coords}
    (h : lookupC (runCached (ks.take n) []).2 k = some v) :
    lookupC (runCached (ks.take m) []).2 k = some v := by
  have hG0 : CacheGood ([] : PCache) := fun e he => absurd he (List.not_mem_nil e)
  have hN0 : CacheKeysNodup ([] : PCache) := List.nodup_nil
  have hR0 : CacheRevCons ([] : PCache) :=
    fun e1 he1 => absurd he1 (List.not_mem_nil e1)
  have h1 : (ks.take m).take n = ks.take n := by
    rw [List.take_take]
    congr 1
    omega
  have h2 := List.take_append_drop n (ks.take m)
  rw [h1] at h2
  rw [← h2, runCached_append]
  obtain ⟨hG, hN, hR⟩ := runCached_inv (ks.take n) [] hG0 hN0 hR0
  exact runCached_persist _ _ hG hN hR _ _ h

/-- C2 (amended): in every sequence of `cached_find_path` calls, each call
returns a path whose length equals that of the uncached `find_path` for its
arguments, and a call whose endpoints are the reverse of an earlier call's
(same forbidden set and dimensions) returns exactly the element-wise reverse
of that earlier call's result without invoking the wrapped `find_path` — but
through two mirrored cache entries rather than one shared normalized entry. -/
theorem c2_cached_find_path_amended (ks : List PKey) :
    (∀ (i : Nat) (ki : PKey), ks[i]? = some ki →
      ∃ ri, (cachedResults ks)[i]? = some ri ∧
      ri.1.length = (findPath ki.s ki.g ki.forb ki.w ki.h).length) ∧
    (∀ (i j : Nat) (ki kj : PKey), i < j → ks[i]? = some ki → ks[j]? = some kj →
      kj.s = ki.g → kj.g = ki.s → kj.forb = ki.forb → kj.w = ki.w →
      kj.h = ki.h →
      ∃ ri rj, (cachedResults ks)[i]? = some ri ∧
        (cachedResults ks)[j]? = some rj ∧
        rj.1 = ri.1.reverse ∧ rj.2 = false) := by
  have hG0 : CacheGood ([] : PCache) :=
    fun e he => absurd he (List.not_mem_nil e)
  have hN0 : CacheKeysNodup ([] : PCache) := List.nodup_nil
  have hR0 : CacheRevCons ([] : PCache) :=
    fun e1 he1 => absurd he1 (List.not_mem_nil e1)
  constructor
  · intro i ki hki
    obtain ⟨hGi, hNi, hRi⟩ := runCached_inv (ks.take i) [] hG0 hN0 hR0
    obtain ⟨hgood, _, _, _, _, _, _⟩ :=
      cachedStep_spec ki (runCached (ks.take i) []).2 hGi hNi hRi
    exact ⟨_, runCached_result ks i [] ki hki, hgood.1⟩
  · intro i j ki kj hij hki hkj h1 h2 h3 h4 h5
    have hjlen : j < ks.length := by
      by_contra hc
      push_neg at hc
      rw [List.getElem?_eq_none hc] at hkj
      exact Option.noConfusion hkj
    obtain ⟨hGi, hNi, hRi⟩ := runCached_inv (ks.take i) [] hG0 hN0 hR0
    obtain ⟨hGj, hNj, hRj⟩ := runCached_inv (ks.take j) [] hG0 hN0 hR0
    obtain ⟨hgoodi, _, _, _, hlkpi, _, _⟩ :=
      cachedStep_spec ki (runCached (ks.take i) []).2 hGi hNi hRi
    obtain ⟨hgoodj, _, _, _, hlkpj, _, hflagj⟩ :=
      cachedStep_spec kj (runCached (ks.take j) []).2 hGj hNj hRj
    have hstepi : (runCached (ks.take (i + 1)) []).2 =
        (cachedStep ki (runCached (ks.take i) []).2).2.1 := by
      rw [List.take_succ, hki, runCached_append]
      rfl
    have hlkpi' : lookupC (runCached (ks.take (i + 1)) []).2 ki =
        some (cachedStep ki (runCached (ks.take i) []).2).1 := by
      rw [hstepi]
      exact hlkpi
    have hlkpij : lookupC (runCached (ks.take j) []).2 ki =
        some (cachedStep ki (runCached (ks.take i) []).2).1 :=
      runCached_take_persist ks (by omega) hlkpi'
    have hinvkey : (⟨kj.g, kj.s, kj.forb, kj.w, kj.h⟩ : PKey) = ki :=
      pkey_eq h2 h1 h3 h4 h5
    have hflag : (cachedStep kj (runCached (ks.take j) []).2).2.2 = false := by
      refine hflagj (cachedStep ki (runCached (ks.take i) []).2).1 ?_
      rw [hinvkey]
      exact hlkpij
    have hstepj : (runCached (ks.take (j + 1)) []).2 =
        (cachedStep kj (runCached (ks.take j) []).2).2.1 := by
      rw [List.take_succ, hkj, runCached_append]
      rfl
    have hlkpj' : lookupC (runCached (ks.take (j + 1)) []).2 kj =
        some (cachedStep kj (runCached (ks.take j) []).2).1 := by
      rw [hstepj]
      exact hlkpj
    have htl : ks.take ks.length = ks := List.take_length ks
    have hfin_i : lookupC (runCached (ks.take ks.length) []).2 ki =
        some (cachedStep ki (runCached (ks.take i) []).2).1 :=
      runCached_take_persist ks (by omega) hlkpi'
    have hfin_j : lookupC (runCached (ks.take ks.length) []).2 kj =
        some (cachedStep kj (runCached (ks.take j) []).2).1 :=
      runCached_take_persist ks (by omega) hlkpj'
    rw [htl] at hfin_i hfin_j
    obtain ⟨hGf, hNf, hRf⟩ := runCached_inv ks [] hG0 hN0 hR0
    have hrev : (cachedStep kj (runCached (ks.take j) []).2).1 =
        ((cachedStep ki (runCached (ks.take i) []).2).1).reverse :=
      hRf _ (lookupC_mem hfin_i) _ (lookupC_mem hfin_j) h1 h2 h3 h4 h5
    exact ⟨_, _, runCached_result ks i [] ki hki,
      runCached_result ks j [] kj hkj, hrev, hflag⟩

/-- C2 witness: on the query sequence `(0,0)→(1,0)` then `(1,0)→(0,0)` over
an empty 2×1 grid, the second result is the reverse of the first and no fresh
search was run for it. -/
theorem c2_cached_find_path_amended_witness :
    ∃ ri rj, (cachedResults [kC2a, kC2b])[0]? = some ri ∧
      (cachedResults [kC2a, kC2b])[1]? = some rj ∧
      rj.1 = ri.1.reverse ∧ rj.2 = false :=
  (c2_cached_find_path_amended [kC2a, kC2b]).2 0 1 kC2a kC2b (by decide)
    rfl rfl (by decide) (by decide) (by decide) (by decide) (by decide)

/-- C2 counterexample to the literal claim: the decorator does not normalize
the key, so after the queries `(0,0)→(1,0)` and `(1,0)→(0,0)` the cache holds
two mirrored entries, one per orientation, not one shared entry — even though
the second query reused the first result (fresh-computation flags
`[true, false]`). -/
theorem c2_cached_find_path_counterexample :
    (runCached [kC2a, kC2b] []).2.map (fun e => e.1) = [kC2a, kC2b] ∧
    (cachedResults [kC2a, kC2b]).map (fun r => r.2) = [true, false] := by
  decide
